import Mathlib

/-!
# Verification of the `data` store library core

A shallow embedding, in Lean 4, of the core data structures and operations of
the `data` repository (a TypeScript reimplementation of `@wordpress/data`):

* `EquivalentKeyMap` (`src/utils/equivalent-key-map.ts`) — a map keyed by
  deep-value equality for object/array keys, with an identity fast path;
* the resolution-tracking reducer and its read-only queries
  (`store/metadata` reducer and selectors);
* the dependency-keyed memoizing selector cache (`create-selector`);
* the registry's store registration and `select` delegation (`registry.ts`);
* `combineReducers` (`src/redux-store/combine-reducers.ts`).

## Modelling conventions

JavaScript runtime values that appear as map keys, property values, resolver
arguments and errors are modelled by `JSVal`.  The embedding covers the
primitive values (`null`, `undefined`, booleans, numbers as `Int`, strings)
together with `fn id` — reference-identity atoms.  The source compares
non-object values with `Map`'s SameValueZero semantics and never descends
into them, so a reference-identity atom behaves exactly like a JavaScript
function value (`typeof f === 'function'`, so every code path under
verification treats it as a non-object scalar compared by reference).
Object-typed *property values* (which the source would key through a nested
`EquivalentKeyMap`) are outside the modelled value universe; composite keys
themselves (objects/arrays used as map keys) are modelled explicitly by
`JKey.comp`.

Mutation is modelled by explicit state passing: an operation that mutates a
map in the source returns the updated map here.
-/

set_option autoImplicit false

namespace DataSpec

/-- A JavaScript value as used for key property values, resolver arguments and
errors: primitives plus reference-identity atoms (`fn id`), see the module
docstring. -/
inductive JSVal : Type where
  | null : JSVal
  | undef : JSVal
  | bool : Bool → JSVal
  | num : Int → JSVal
  | str : String → JSVal
  | fn : Nat → JSVal
deriving DecidableEq, Repr

/-- JavaScript truthiness of a modelled value (`!!v`).  `fn` atoms are
functions, hence truthy; numbers are falsy exactly at `0` (`NaN` is not in
the modelled universe). -/
def JSVal.truthy : JSVal → Bool
  | .null => false
  | .undef => false
  | .bool b => b
  | .num n => n != 0
  | .str s => s ≠ ""
  | .fn _ => true

/-- A key of an `EquivalentKeyMap`.

* `prim v` — `key === null || typeof key !== 'object'`: stored directly in the
  backing `Map` by SameValueZero equality.
* `comp id isArray props` — an object (`isArray = false`) or array
  (`isArray = true`) reference with own enumerable properties `props`.
  `id` models the reference identity of the key object: two keys with
  different `id`s are different object references (possibly deeply equal).

Equality of `JKey` models JavaScript `===`. -/
inductive JKey : Type where
  | prim : JSVal → JKey
  | comp : Nat → Bool → List (String × JSVal) → JKey
deriving DecidableEq, Repr

namespace JKey

/-- Own enumerable properties of a composite key (`[]` for a primitive). -/
def props : JKey → List (String × JSVal)
  | .prim _ => []
  | .comp _ _ ps => ps

/-- The property names of a key, in their own order. -/
def names (k : JKey) : List String := k.props.map Prod.fst

end JKey

/-! ## Association-list helpers

The source stores data in JavaScript `Map` objects; we model a `Map` as an
association list in insertion order.  `assocFind` is `Map#get`/`Map#has`,
`assocSet` is `Map#set` (update in place when present, append when absent),
`assocDelete` is `Map#delete`. -/

section Assoc

variable {α : Type} {β : Type} [DecidableEq α]

/-- `Map#get`: the value at the first (unique) occurrence of the key. -/
def assocFind (l : List (α × β)) (a : α) : Option β :=
  (l.find? (fun p => p.1 = a)).map Prod.snd

/-- `Map#set`: replace the value in place if the key is present, else append. -/
def assocSet (l : List (α × β)) (a : α) (b : β) : List (α × β) :=
  match l with
  | [] => [(a, b)]
  | (a', b') :: rest =>
    if a' = a then (a, b) :: rest else (a', b') :: assocSet rest a b

/-- `Map#delete` (ignoring the returned boolean): remove all entries at the key
(at most one in any map built through `assocSet`). -/
def assocDelete (l : List (α × β)) (a : α) : List (α × β) :=
  l.filter (fun p => p.1 ≠ a)

@[simp] theorem assocFind_nil (a : α) : assocFind ([] : List (α × β)) a = none := rfl

@[simp] theorem assocFind_cons (a' : α) (b' : β) (l : List (α × β)) (a : α) :
    assocFind ((a', b') :: l) a =
      if a' = a then some b' else assocFind l a := by
  simp only [assocFind, List.find?]
  by_cases h : a' = a <;> simp [h]

@[simp] theorem assocSet_nil (a : α) (b : β) :
    assocSet ([] : List (α × β)) a b = [(a, b)] := rfl

theorem assocFind_assocSet_self (l : List (α × β)) (a : α) (b : β) :
    assocFind (assocSet l a b) a = some b := by
  induction l with
  | nil => simp
  | cons p rest ih =>
    obtain ⟨a', b'⟩ := p
    by_cases h : a' = a
    · simp [assocSet, h]
    · simp [assocSet, h, ih]

theorem assocFind_assocSet_ne (l : List (α × β)) (a a' : α) (b : β)
    (h : a' ≠ a) : assocFind (assocSet l a b) a' = assocFind l a' := by
  induction l with
  | nil => simp [Ne.symm h]
  | cons p rest ih =>
    obtain ⟨a₀, b₀⟩ := p
    by_cases h₀ : a₀ = a
    · subst h₀
      simp [assocSet, Ne.symm h]
    · simp only [assocSet, if_neg h₀]
      by_cases h₁ : a₀ = a' <;> simp [h₁, ih]

theorem assocFind_assocDelete_self (l : List (α × β)) (a : α) :
    assocFind (assocDelete l a) a = none := by
  induction l with
  | nil => simp [assocDelete]
  | cons p rest ih =>
    obtain ⟨a₀, b₀⟩ := p
    by_cases h : a₀ = a
    · simpa [assocDelete, h] using ih
    · simpa [assocDelete, h] using ih

theorem assocFind_assocDelete_ne (l : List (α × β)) (a a' : α) (h : a' ≠ a) :
    assocFind (assocDelete l a) a' = assocFind l a' := by
  induction l with
  | nil => simp [assocDelete]
  | cons p rest ih =>
    obtain ⟨a₀, b₀⟩ := p
    by_cases h₀ : a₀ = a
    · subst h₀
      simpa [assocDelete, List.filter, Ne.symm h] using ih
    · by_cases h₁ : a₀ = a'
      · subst h₁
        simp [assocDelete, List.filter, Ne.symm h, h₀]
      · simpa [assocDelete, List.filter, h₀, h₁] using ih

/-- Membership of a key–value pair in the updated list, for keys other than
the updated one. -/
theorem mem_assocSet_of_ne (l : List (α × β)) (a : α) (b : β) (p : α × β)
    (hp : p ∈ assocSet l a b) (hne : p.1 ≠ a) : p ∈ l := by
  induction l with
  | nil =>
    simp only [assocSet_nil, List.mem_singleton] at hp
    subst hp; exact absurd rfl hne
  | cons q rest ih =>
    obtain ⟨a₀, b₀⟩ := q
    by_cases h₀ : a₀ = a
    · simp only [assocSet, if_pos h₀, List.mem_cons] at hp
      rcases hp with hp | hp
      · subst hp; exact absurd rfl hne
      · exact List.mem_cons_of_mem _ hp
    · simp only [assocSet, if_neg h₀, List.mem_cons] at hp
      rcases hp with hp | hp
      · exact hp ▸ List.mem_cons_self _ _
      · exact List.mem_cons_of_mem _ (ih hp)

theorem mem_assocDelete (l : List (α × β)) (a : α) (p : α × β)
    (hp : p ∈ assocDelete l a) : p ∈ l ∧ p.1 ≠ a := by
  have := List.mem_filter.mp hp
  exact ⟨this.1, by simpa using this.2⟩

theorem mem_assocSet (l : List (α × β)) (a : α) (b : β) (p : α × β)
    (hp : p ∈ assocSet l a b) : p = (a, b) ∨ p ∈ l := by
  induction l with
  | nil => simpa using hp
  | cons q rest ih =>
    obtain ⟨a₀, b₀⟩ := q
    by_cases h₀ : a₀ = a
    · simp only [assocSet, if_pos h₀, List.mem_cons] at hp
      rcases hp with hp | hp
      · exact Or.inl hp
      · exact Or.inr (List.mem_cons_of_mem _ hp)
    · simp only [assocSet, if_neg h₀, List.mem_cons] at hp
      rcases hp with hp | hp
      · exact Or.inr (hp ▸ List.mem_cons_self _ _)
      · rcases ih hp with hh | hh
        · exact Or.inl hh
        · exact Or.inr (List.mem_cons_of_mem _ hh)

theorem nodup_keys_assocSet (l : List (α × β)) (a : α) (b : β)
    (h : (l.map Prod.fst).Nodup) : ((assocSet l a b).map Prod.fst).Nodup := by
  induction l with
  | nil => simp
  | cons q rest ih =>
    obtain ⟨a₀, b₀⟩ := q
    simp only [List.map_cons, List.nodup_cons] at h
    by_cases h₀ : a₀ = a
    · simp only [assocSet, if_pos h₀, List.map_cons, List.nodup_cons]
      exact ⟨h₀ ▸ h.1, h.2⟩
    · simp only [assocSet, if_neg h₀, List.map_cons, List.nodup_cons]
      refine ⟨fun hmem => ?_, ih h.2⟩
      have := List.mem_map.mp hmem
      obtain ⟨p, hp, hfst⟩ := this
      rcases mem_assocSet rest a b p hp with hh | hh
      · exact h₀ (by rw [← hfst, hh])
      · exact h.1 (List.mem_map.mpr ⟨p, hh, hfst⟩)

theorem nodup_keys_assocDelete (l : List (α × β)) (a : α)
    (h : (l.map Prod.fst).Nodup) : ((assocDelete l a).map Prod.fst).Nodup := by
  have hsub : (assocDelete l a).Sublist l := List.filter_sublist l
  exact h.sublist (hsub.map Prod.fst)

theorem assocFind_mem (l : List (α × β)) (a : α) (b : β)
    (h : assocFind l a = some b) : (a, b) ∈ l := by
  simp only [assocFind, Option.map_eq_some'] at h
  obtain ⟨p, hp, hsnd⟩ := h
  have hmem := List.mem_of_find?_eq_some hp
  have hkey := List.find?_some hp
  simp only [decide_eq_true_eq] at hkey
  obtain ⟨pa, pb⟩ := p
  simp only at hkey hsnd
  subst hkey; subst hsnd
  exact hmem

/-- On a list with distinct keys, the only entry at the updated key is the new
pair. -/
theorem eq_of_mem_assocSet_self (l : List (α × β)) (a : α) (b b' : β)
    (hnd : (l.map Prod.fst).Nodup) (hp : (a, b') ∈ assocSet l a b) : b' = b := by
  induction l with
  | nil => simpa using hp
  | cons q rest ih =>
    obtain ⟨a₀, b₀⟩ := q
    simp only [List.map_cons, List.nodup_cons] at hnd
    by_cases h₀ : a₀ = a
    · simp only [assocSet, if_pos h₀] at hp
      rcases List.mem_cons.mp hp with hp | hp
      · exact congrArg Prod.snd hp
      · exact absurd (List.mem_map.mpr ⟨(a, b'), hp, rfl⟩) (h₀ ▸ hnd.1)
    · simp only [assocSet, if_neg h₀] at hp
      rcases List.mem_cons.mp hp with hp | hp
      · injection hp with h1 h2
        exact absurd h1.symm h₀
      · exact ih hnd.2 hp

end Assoc

/-! ## Sorting of property names

`Object.keys(key).sort()` sorts the key's own enumerable property names
lexicographically.  The model sorts the property *entries* by name with
Lean's total order on `String`; the claims under verification depend only on
the sort being a deterministic function of the entry multiset (for keys with
distinct property names), which any fixed total order provides. -/

/-- Strict lexicographic comparison of character sequences — the order the
default `Array.prototype.sort` comparator induces on property-name
strings. -/
def charListLtB : List Char → List Char → Bool
  | _, [] => false
  | [], _ :: _ => true
  | a :: as, b :: bs =>
    if a.toNat < b.toNat then true
    else if b.toNat < a.toNat then false
    else charListLtB as bs

/-- `a` sorts no later than `b` under the default comparator. -/
def strLeB (a b : String) : Bool := !(charListLtB b.data a.data)

theorem charListLtB_irrefl (l : List Char) : charListLtB l l = false := by
  induction l with
  | nil => rfl
  | cons a as ih => simp [charListLtB, ih]

theorem charListLtB_trans {a b c : List Char} (hab : charListLtB a b = true)
    (hbc : charListLtB b c = true) : charListLtB a c = true := by
  induction a generalizing b c with
  | nil =>
    cases c with
    | nil =>
      cases b with
      | nil => exact hab
      | cons b0 bs => simp [charListLtB] at hbc
    | cons c0 cs => rfl
  | cons a0 as ih =>
    cases b with
    | nil => simp [charListLtB] at hab
    | cons b0 bs =>
      cases c with
      | nil => simp [charListLtB] at hbc
      | cons c0 cs =>
        by_cases h1 : a0.toNat < b0.toNat
        · by_cases h2 : b0.toNat < c0.toNat
          · have h3 : a0.toNat < c0.toNat := lt_trans h1 h2
            simp [charListLtB, h3]
          · by_cases h3 : c0.toNat < b0.toNat
            · simp [charListLtB, h2, h3] at hbc
            · have heq : b0.toNat = c0.toNat :=
                le_antisymm (not_lt.mp h3) (not_lt.mp h2)
              have h4 : a0.toNat < c0.toNat := heq ▸ h1
              simp [charListLtB, h4]
        · by_cases h2 : b0.toNat < a0.toNat
          · simp [charListLtB, h1, h2] at hab
          · have heqab : a0.toNat = b0.toNat :=
              le_antisymm (not_lt.mp h2) (not_lt.mp h1)
            simp only [charListLtB, h1, h2, if_false] at hab
            by_cases h3 : b0.toNat < c0.toNat
            · have h4 : a0.toNat < c0.toNat := heqab ▸ h3
              simp [charListLtB, h4]
            · by_cases h4 : c0.toNat < b0.toNat
              · simp [charListLtB, h3, h4] at hbc
              · have heqbc : b0.toNat = c0.toNat :=
                  le_antisymm (not_lt.mp h4) (not_lt.mp h3)
                simp only [charListLtB, h3, h4, if_false] at hbc
                have h5 : ¬ a0.toNat < c0.toNat := by omega
                have h6 : ¬ c0.toNat < a0.toNat := by omega
                simp [charListLtB, h5, h6]
                exact ih hab hbc

theorem charListLtB_connex {a b : List Char} (hab : charListLtB a b = false)
    (hba : charListLtB b a = false) : a = b := by
  induction a generalizing b with
  | nil =>
    cases b with
    | nil => rfl
    | cons b0 bs => simp [charListLtB] at hab
  | cons a0 as ih =>
    cases b with
    | nil => simp [charListLtB] at hba
    | cons b0 bs =>
      by_cases h1 : a0.toNat < b0.toNat
      · simp [charListLtB, h1] at hab
      · by_cases h2 : b0.toNat < a0.toNat
        · simp [charListLtB, h2] at hba
        · have he : a0 = b0 :=
            Char.eq_of_val_eq (UInt32.ext
              (le_antisymm (not_lt.mp h2) (not_lt.mp h1)))
          subst he
          simp only [charListLtB, h1, if_false, lt_irrefl] at hab hba
          rw [ih hab hba]

theorem strLeB_total (a b : String) : strLeB a b = true ∨ strLeB b a = true := by
  by_cases h : charListLtB b.data a.data = true
  · right
    have h2 : charListLtB a.data b.data = false := by
      by_contra h2
      have h2' : charListLtB a.data b.data = true := by
        simpa using h2
      have := charListLtB_trans h2' h
      rw [charListLtB_irrefl] at this
      cases this
    simp [strLeB, h2]
  · left
    simp only [Bool.not_eq_true] at h
    simp [strLeB, h]

theorem strLeB_trans {a b c : String} (hab : strLeB a b = true)
    (hbc : strLeB b c = true) : strLeB a c = true := by
  simp only [strLeB, Bool.not_eq_true'] at hab hbc ⊢
  by_contra hca
  have hca' : charListLtB c.data a.data = true := by simpa using hca
  by_cases hbc2 : charListLtB b.data c.data = true
  · have := charListLtB_trans hbc2 hca'
    rw [this] at hab
    cases hab
  · have heq : b.data = c.data :=
      charListLtB_connex (by simpa using hbc2) hbc
    rw [← heq] at hca'
    rw [hca'] at hab
    cases hab

/-- The sort order of the walk, on property entries. -/
def propLe (p q : String × JSVal) : Prop := strLeB p.1 q.1 = true

instance : DecidableRel propLe := fun p q => Bool.decEq (strLeB p.1 q.1) true

instance : IsTotal (String × JSVal) propLe := ⟨fun a b => strLeB_total a.1 b.1⟩

instance : IsTrans (String × JSVal) propLe :=
  ⟨fun _ _ _ hab hbc => strLeB_trans hab hbc⟩

/-- The key's own properties sorted by property name, values carried along
(`Object.keys(key).sort()`, the walk then reads `key[property]` at each
name; `Array.prototype.sort` is stable, so any stable sorting algorithm is
a faithful model). -/
def sortProps (ps : List (String × JSVal)) : List (String × JSVal) :=
  ps.insertionSort propLe

theorem sortProps_perm (ps : List (String × JSVal)) : List.Perm (sortProps ps) ps :=
  List.perm_insertionSort propLe ps

theorem sortProps_sorted (ps : List (String × JSVal)) :
    List.Pairwise propLe (sortProps ps) :=
  List.sorted_insertionSort propLe ps

/-- The strict order on property entries: names strictly earlier in the sort
order. -/
def propLt (p q : String × JSVal) : Prop := charListLtB p.1.data q.1.data = true

theorem propLt_of_propLe_ne {p q : String × JSVal} (hle : propLe p q)
    (hne : p.1 ≠ q.1) : propLt p q := by
  simp only [propLe, strLeB, Bool.not_eq_true'] at hle
  by_cases h : charListLtB p.1.data q.1.data = true
  · exact h
  · exact absurd (String.ext (charListLtB_connex (by simpa using h) hle)) hne

instance : IsAntisymm (String × JSVal) propLt :=
  ⟨fun a b hab hba => by
    have := charListLtB_trans hab hba
    rw [charListLtB_irrefl] at this
    cases this⟩

/-- Two property lists that are permutations of each other, with no duplicate
names, sort to the same list.  This is the stability requirement behind
order-insensitive composite-key lookup. -/
theorem sortProps_eq_of_perm (ps qs : List (String × JSVal))
    (hperm : List.Perm ps qs) (hnd : (ps.map Prod.fst).Nodup) :
    sortProps ps = sortProps qs := by
  have hperm' : List.Perm (sortProps ps) (sortProps qs) :=
    (sortProps_perm ps).trans (hperm.trans (sortProps_perm qs).symm)
  have hndp : (sortProps ps).Pairwise (fun p q => p.1 ≠ q.1) := by
    have : ((sortProps ps).map Prod.fst).Nodup :=
      (hnd.perm ((sortProps_perm ps).map Prod.fst).symm)
    exact (List.pairwise_map).mp this
  have hndq : (sortProps qs).Pairwise (fun p q => p.1 ≠ q.1) := by
    have hndq' : (qs.map Prod.fst).Nodup := hnd.perm (hperm.map Prod.fst)
    have : ((sortProps qs).map Prod.fst).Nodup :=
      (hndq'.perm ((sortProps_perm qs).map Prod.fst).symm)
    exact (List.pairwise_map).mp this
  have hsp : (sortProps ps).Pairwise propLt :=
    ((sortProps_sorted ps).and hndp).imp (fun h => propLt_of_propLe_ne h.1 h.2)
  have hsq : (sortProps qs).Pairwise propLt :=
    ((sortProps_sorted qs).and hndq).imp (fun h => propLt_of_propLe_ne h.1 h.2)
  exact List.eq_of_perm_of_sorted hperm' hsp hsq

/-! ## EquivalentKeyMap (`src/utils/equivalent-key-map.ts`)

The source keeps three structures per map instance:

* `_map` — a `Map` from the key (primitive, or composite-key *reference*) to
  the stored value (primitive keys) or to the `[lastKeyReference, value]`
  pair (composite keys);
* `_arrayTreeMap` / `_objectTreeMap` — prefix trees walked one
  property-name level and one property-value level at a time, terminating in
  the reserved `'_ekm_value'` slot that holds the same pair.

Tree nodes are themselves `EquivalentKeyMap` instances in the source, but
within the modelled value universe every node-level access goes through the
node's own backing `Map`, so a node is modelled as an association list of
children plus the reserved leaf slot.  The leaf slot is a separate field
rather than a `'_ekm_value'` association: in the source the two collide only
for keys that have an own property literally named `_ekm_value`, and
theorems about general composite keys below carry the corresponding
side condition. -/

/-- A prefix-tree node.  `leaf` is the reserved `'_ekm_value'` slot holding
the `[lastKeyReference, value]` pair (`Option V` because `delete` stores the
value `undefined`); `entries` are the child nodes, keyed by a property name
(`JSVal.str`, at even depth) or by a property value (at odd depth). -/
inductive Node (V : Type) : Type where
  | mk (leaf : Option (JKey × Option V)) (entries : List (JSVal × Node V))

namespace Node

/-- The reserved leaf slot of a node. -/
def leaf {V : Type} : Node V → Option (JKey × Option V)
  | .mk l _ => l

/-- The child entries of a node. -/
def entries {V : Type} : Node V → List (JSVal × Node V)
  | .mk _ es => es

/-- `new EquivalentKeyMap()` as a fresh tree node. -/
def empty {V : Type} : Node V := .mk none []

end Node

/-- The walk of `EquivalentKeyMap#set` over a tree, rebuilding the visited
path: one property-name level (`map.has(property) || map.set(property, new
EquivalentKeyMap()); map = map.get(property)`) and one property-value level
per sorted property, then the leaf-slot update (`map.set('_ekm_value',
valuePair)`).  The `previousValuePair` the source reads at the reached node
is, on the unmodified tree, exactly `findWalk` at the same path; `set`
below reads it that way. -/
def setWalk {V : Type} : Node V → List (String × JSVal) → (JKey × Option V) → Node V
  | .mk _ es, [], pr => .mk (some pr) es
  | .mk l es, (name, val) :: rest, pr =>
    let nameChild := (assocFind es (.str name)).getD Node.empty
    let valChild := (assocFind nameChild.entries val).getD Node.empty
    let nameChild' : Node V :=
      .mk nameChild.leaf (assocSet nameChild.entries val (setWalk valChild rest pr))
    .mk l (assocSet es (.str name) nameChild')

/-- The pure walk of `getValuePair` over a tree: follow a property-name child
then a property-value child per sorted property (`map = map.get(property); if
(map === undefined) return;` …), and read the reserved leaf slot. -/
def findWalk {V : Type} : Node V → List (String × JSVal) → Option (JKey × Option V)
  | n, [] => n.leaf
  | n, (name, val) :: rest =>
    match assocFind n.entries (.str name) with
    | none => none
    | some nc =>
      match assocFind nc.entries val with
      | none => none
      | some vc => findWalk vc rest

/-- `getValuePair`'s tree walk together with its mutation: on a hit the pair's
key reference is rebound to the requested key (`valuePair[0] = key;
map.set('_ekm_value', valuePair)`), so the rebuilt node is returned as
well. -/
def getWalkRetarget {V : Type} : Node V → List (String × JSVal) → JKey →
    Option ((JKey × Option V) × Node V)
  | .mk leaf es, [], key =>
    match leaf with
    | none => none
    | some (k0, v) => some ((k0, v), .mk (some (key, v)) es)
  | .mk leaf es, (name, val) :: rest, key =>
    match assocFind es (.str name) with
    | none => none
    | some nc =>
      match assocFind nc.entries val with
      | none => none
      | some vc =>
        match getWalkRetarget vc rest key with
        | none => none
        | some (p, vc') =>
          some (p, .mk leaf
            (assocSet es (.str name) (.mk nc.leaf (assocSet nc.entries val vc'))))

/-- A value stored in the backing `_map`:

* `direct v` for a primitive key — the stored value itself (`none` models the
  value `undefined`, which `delete` stores);
* `vpair r v` for a composite key — the `[lastKeyReference, value]` pair. -/
inductive MapEntry (V : Type) : Type where
  | direct : Option V → MapEntry V
  | vpair : JKey → Option V → MapEntry V
deriving DecidableEq

/-- `value[1]` of a stored `_map` value, as read by `EquivalentKeyMap#some`.
For a pair this is the stored value; reading index 1 of a non-indexable
stored value yields `undefined` (the resolution state never stores
indexable values). -/
def MapEntry.atIndexOne {V : Type} : MapEntry V → Option V
  | .vpair _ v => v
  | .direct _ => none

/-- The value component a `forEach` callback receives: the raw stored value
for a primitive key, `value[1]` (the pair's value) for a composite key. -/
def MapEntry.forEachValue {V : Type} : MapEntry V → Option V
  | .direct v => v
  | .vpair _ v => v

/-- The state of an `EquivalentKeyMap` instance. -/
structure EKMap (V : Type) : Type where
  _map : List (JKey × MapEntry V)
  _arrayTreeMap : Node V
  _objectTreeMap : Node V

namespace EKMap

/-- A map as produced by `clear()` / the zero-argument constructor. -/
def empty {V : Type} : EKMap V := ⟨[], Node.empty, Node.empty⟩

/-- `Array.isArray(key) ? this._arrayTreeMap : this._objectTreeMap` (only
meaningful for composite keys). -/
def tree {V : Type} (m : EKMap V) : JKey → Node V
  | .prim _ => m._objectTreeMap
  | .comp _ isArr _ => if isArr then m._arrayTreeMap else m._objectTreeMap

/-- Store a rebuilt tree back into the instance, on the side the key selects. -/
def putTree {V : Type} (m : EKMap V) (k : JKey) (n : Node V) : EKMap V :=
  match k with
  | .prim _ => { m with _objectTreeMap := n }
  | .comp _ isArr _ =>
    if isArr then { m with _arrayTreeMap := n } else { m with _objectTreeMap := n }

/-- The sorted property walk of a key (`Object.keys(key).sort()`, values read
back off the key at each name). -/
def sortedProps (k : JKey) : List (String × JSVal) := sortProps k.props

/-- `EquivalentKeyMap#set(key, value)`.  `value : Option V` because `delete`
re-enters `set` with the value `undefined` (`none`); a normal `set` passes
`some v`. -/
def set {V : Type} (m : EKMap V) (key : JKey) (value : Option V) : EKMap V :=
  match key with
  | .prim _ => { m with _map := assocSet m._map key (.direct value) }
  | .comp _ _ _ =>
    let tree' := setWalk (m.tree key) (sortedProps key) (key, value)
    -- `previousValuePair` (read from the reached node before overwriting) and
    -- its eviction: `this._map.delete(previousValuePair[0])`.
    let map₁ := match findWalk (m.tree key) (sortedProps key) with
      | some (k0, _) => assocDelete m._map k0
      | none => m._map
    let m' := { m with _map := assocSet map₁ key (.vpair key value) }
    m'.putTree key tree'

/-- `getValuePair(instance, key)` for a composite key: the `_map` fast path
(`if (_map.has(key)) return _map.get(key);` — no mutation), else the tree
walk, whose hit rebinds the cached key reference
(`_map.delete(valuePair[0]); valuePair[0] = key; _map.set(key, valuePair)`).
Returns the pair and the updated instance. -/
def getValuePair {V : Type} (m : EKMap V) (key : JKey) :
    Option (JKey × Option V) × EKMap V :=
  match assocFind m._map key with
  | some (.vpair k0 v) => (some (k0, v), m)
  | some (.direct _) =>
    -- Unreachable: `_map` never stores a composite key with a direct value.
    (none, m)
  | none =>
    match getWalkRetarget (m.tree key) (sortedProps key) key with
    | none => (none, m)
    | some ((k0, v), tree') =>
      let m' := { m with _map := assocSet (assocDelete m._map k0) key (.vpair key v) }
      (some (key, v), m'.putTree key tree')

/-- `EquivalentKeyMap#get(key)`: primitive keys read the backing `_map`
directly; composite keys go through `getValuePair` and return `valuePair[1]`
(`undefined` — `none` — when the pair is absent, and also when the pair's
stored value is `undefined`). -/
def get {V : Type} (m : EKMap V) (key : JKey) : Option V × EKMap V :=
  match key with
  | .prim _ =>
    (match assocFind m._map key with
     | some (.direct v) => v
     -- Unreachable: primitive keys are always stored as direct values.
     | some (.vpair _ _) => none
     | none => none, m)
  | .comp _ _ _ =>
    let (p, m') := getValuePair m key
    (p.bind Prod.snd, m')

/-- `EquivalentKeyMap#has(key)`: presence of the entry (pair), not of its
value — "even `undefined` can be a valid member value for a key". -/
def has {V : Type} (m : EKMap V) (key : JKey) : Bool × EKMap V :=
  match key with
  | .prim _ => ((assocFind m._map key).isSome, m)
  | .comp _ _ _ =>
    let (p, m') := getValuePair m key
    (p.isSome, m')

/-- `EquivalentKeyMap#delete(key)`: `if (!this.has(key)) return false;
this.set(key, undefined); return true;` — the naive tombstoning
implementation flagged in the source. -/
def delete {V : Type} (m : EKMap V) (key : JKey) : Bool × EKMap V :=
  let (b, m') := m.has key
  if b then (true, m'.set key none) else (false, m')

/-- `EquivalentKeyMap#size`: the size of the backing `_map`. -/
def size {V : Type} (m : EKMap V) : Nat := m._map.length

/-- The pair list collected by the copy constructor
(`iterable.forEach((value, key) => iterablePairs.push([key, value]))`):
`forEach` unwraps the composite-key value pairs. -/
def iterPairs {V : Type} (m : EKMap V) : List (JKey × Option V) :=
  m._map.map (fun p => (p.1, p.2.forEachValue))

/-- `new EquivalentKeyMap(instance)`: re-`set` every `forEach`-visible pair
into a fresh map. -/
def copy {V : Type} (m : EKMap V) : EKMap V :=
  m.iterPairs.foldl (fun acc p => acc.set p.1 p.2) EKMap.empty

end EKMap

/-- The iteration core of `EquivalentKeyMap#some`: `for (const [key, value] of
this._map) { if (callback(key, value[1])) return true; } return false;`.
The callback may itself crash (model: return `none`), e.g. by reading a
property of `undefined`; the crash propagates. -/
def someAux {V : Type} (cb : JKey → Option V → Option Bool) :
    List (JKey × MapEntry V) → Option Bool
  | [] => some false
  | (k, e) :: rest =>
    match cb k e.atIndexOne with
    | none => none
    | some true => some true
    | some false => someAux cb rest

/-- `EquivalentKeyMap#some(callback)`, with callback crashes propagated as
`none`. -/
def EKMap.someM {V : Type} (m : EKMap V) (cb : JKey → Option V → Option Bool) :
    Option Bool :=
  someAux cb m._map

/-- Equivalence of keys as realised by the data structure: primitives by
SameValueZero, composite keys by kind plus equality of the sorted property
walks (same own-property names with the same values, in any order for keys
with distinct names). -/
def JKey.equivB : JKey → JKey → Bool
  | .prim v, .prim v' => v = v'
  | .comp _ ar ps, .comp _ ar' ps' => ar = ar' && decide (sortProps ps = sortProps ps')
  | _, _ => false

/-- Which of the two trees a key selects (`Array.isArray(key)`). -/
def JKey.sideB : JKey → Bool
  | .prim _ => false
  | .comp _ ar _ => ar

/-- Whether a key is composite (`key !== null && typeof key === 'object'`). -/
def JKey.isCompB : JKey → Bool
  | .prim _ => false
  | .comp _ _ _ => true

/-! ### Walk lemmas -/

@[simp] theorem Node.leaf_mk {V : Type} (l : Option (JKey × Option V))
    (es : List (JSVal × Node V)) : (Node.mk l es).leaf = l := rfl

@[simp] theorem Node.entries_mk {V : Type} (l : Option (JKey × Option V))
    (es : List (JSVal × Node V)) : (Node.mk l es).entries = es := rfl

@[simp] theorem findWalk_mk_none_nil {V : Type} (qs : List (String × JSVal)) :
    findWalk (Node.mk none ([] : List (JSVal × Node V))) qs = none := by
  cases qs with
  | nil => rfl
  | cons q rest => simp [findWalk]

@[simp] theorem findWalk_empty {V : Type} (qs : List (String × JSVal)) :
    findWalk (Node.empty : Node V) qs = none :=
  findWalk_mk_none_nil qs

/-- The walk of `set` leaves exactly the new pair at the walked path. -/
theorem findWalk_setWalk_self {V : Type} (ps : List (String × JSVal))
    (n : Node V) (pr : JKey × Option V) :
    findWalk (setWalk n ps pr) ps = some pr := by
  induction ps generalizing n with
  | nil => obtain ⟨l, es⟩ := n; simp [setWalk, findWalk]
  | cons hd rest ih =>
    obtain ⟨name, val⟩ := hd
    obtain ⟨l, es⟩ := n
    simp only [setWalk, findWalk, Node.entries_mk, assocFind_assocSet_self]
    exact ih _

/-- The walk of `set` leaves every other path unchanged. -/
theorem findWalk_setWalk_ne {V : Type} (ps qs : List (String × JSVal))
    (n : Node V) (pr : JKey × Option V) (hne : qs ≠ ps) :
    findWalk (setWalk n ps pr) qs = findWalk n qs := by
  induction ps generalizing n qs with
  | nil =>
    obtain ⟨l, es⟩ := n
    cases qs with
    | nil => exact absurd rfl hne
    | cons q qrest => obtain ⟨qn, qv⟩ := q; simp [setWalk, findWalk]
  | cons hd rest ih =>
    obtain ⟨name, val⟩ := hd
    obtain ⟨l, es⟩ := n
    cases qs with
    | nil => simp [setWalk, findWalk]
    | cons qhd qrest =>
      obtain ⟨qn, qv⟩ := qhd
      by_cases hn : qn = name
      · subst hn
        cases hnc : assocFind es (JSVal.str qn) with
        | none =>
          by_cases hv : qv = val
          · subst hv
            have htl : qrest ≠ rest := fun h => hne (by rw [h])
            have hemp : findWalk (setWalk (Node.mk none
                ([] : List (JSVal × Node V))) rest pr) qrest = none := by
              rw [ih qrest (Node.mk none []) htl]; simp
            simp [setWalk, findWalk, hnc, Node.empty, assocFind_assocSet_self,
              hemp]
          · simp [setWalk, findWalk, hnc, Node.empty, assocFind_assocSet_self,
              Ne.symm hv]
        | some nc =>
          by_cases hv : qv = val
          · subst hv
            have htl : qrest ≠ rest := fun h => hne (by rw [h])
            cases hvc : assocFind nc.entries qv with
            | none =>
              have hemp : findWalk (setWalk (Node.mk none
                  ([] : List (JSVal × Node V))) rest pr) qrest = none := by
                rw [ih qrest (Node.mk none []) htl]; simp
              simp [setWalk, findWalk, hnc, hvc, Node.empty,
                assocFind_assocSet_self, hemp]
            | some vc =>
              simp [setWalk, findWalk, hnc, hvc, assocFind_assocSet_self,
                ih qrest vc htl]
          · simp [setWalk, findWalk, hnc, assocFind_assocSet_self,
              assocFind_assocSet_ne _ _ _ _ hv, Ne.symm hv]
      · have hn' : JSVal.str qn ≠ JSVal.str name := fun h => hn (by injection h)
        simp only [setWalk, findWalk, Node.entries_mk,
          assocFind_assocSet_ne _ _ _ _ hn']

/-- `getValuePair`'s walk finds the same pair as the pure walk. -/
theorem getWalkRetarget_fst {V : Type} (ps : List (String × JSVal))
    (n : Node V) (key : JKey) :
    (getWalkRetarget n ps key).map Prod.fst = findWalk n ps := by
  induction ps generalizing n with
  | nil =>
    obtain ⟨l, es⟩ := n
    cases l with
    | none => simp [getWalkRetarget, findWalk]
    | some p => obtain ⟨k0, v⟩ := p; simp [getWalkRetarget, findWalk]
  | cons hd rest ih =>
    obtain ⟨name, val⟩ := hd
    obtain ⟨l, es⟩ := n
    simp only [getWalkRetarget, findWalk, Node.entries_mk]
    cases hnc : assocFind es (JSVal.str name) with
    | none => simp
    | some nc =>
      cases hvc : assocFind nc.entries val with
      | none => simp [hvc]
      | some vc =>
        simp only [hvc]
        rw [← ih vc]
        cases hr : getWalkRetarget vc rest key with
        | none => simp [hr]
        | some pn => obtain ⟨p, vc'⟩ := pn; simp [hr]

/-- After `getValuePair`'s key-reference rebinding, the walked path holds the
same value under the new key reference. -/
theorem findWalk_getWalkRetarget_self {V : Type} (ps : List (String × JSVal))
    (n : Node V) (key : JKey) (p : JKey × Option V) (n' : Node V)
    (h : getWalkRetarget n ps key = some (p, n')) :
    findWalk n' ps = some (key, p.2) := by
  induction ps generalizing n n' with
  | nil =>
    obtain ⟨l, es⟩ := n
    cases l with
    | none => simp [getWalkRetarget] at h
    | some q =>
      obtain ⟨k0, v⟩ := q
      simp only [getWalkRetarget, Option.some.injEq, Prod.mk.injEq] at h
      obtain ⟨hp, hn'⟩ := h
      subst hn'
      simp [findWalk, ← hp]
  | cons hd rest ih =>
    obtain ⟨name, val⟩ := hd
    obtain ⟨l, es⟩ := n
    simp only [getWalkRetarget, Node.entries_mk] at h
    cases hnc : assocFind es (JSVal.str name) with
    | none => simp [hnc] at h
    | some nc =>
      simp only [hnc] at h
      cases hvc : assocFind nc.entries val with
      | none => simp [hvc] at h
      | some vc =>
        simp only [hvc] at h
        cases hr : getWalkRetarget vc rest key with
        | none => simp [hr] at h
        | some pn =>
          obtain ⟨p', vc'⟩ := pn
          simp only [hr, Option.some.injEq, Prod.mk.injEq] at h
          obtain ⟨hp, hn'⟩ := h
          subst hn'
          subst hp
          simp only [findWalk, Node.entries_mk, assocFind_assocSet_self]
          exact ih vc vc' hr

/-- `getValuePair`'s rebinding leaves every other path unchanged. -/
theorem findWalk_getWalkRetarget_ne {V : Type} (ps qs : List (String × JSVal))
    (n : Node V) (key : JKey) (p : JKey × Option V) (n' : Node V)
    (h : getWalkRetarget n ps key = some (p, n')) (hne : qs ≠ ps) :
    findWalk n' qs = findWalk n qs := by
  induction ps generalizing n n' qs with
  | nil =>
    obtain ⟨l, es⟩ := n
    cases l with
    | none => simp [getWalkRetarget] at h
    | some q =>
      obtain ⟨k0, v⟩ := q
      simp only [getWalkRetarget, Option.some.injEq, Prod.mk.injEq] at h
      obtain ⟨hp, hn'⟩ := h
      subst hn'
      cases qs with
      | nil => exact absurd rfl hne
      | cons qhd qrest => obtain ⟨qn, qv⟩ := qhd; simp [findWalk]
  | cons hd rest ih =>
    obtain ⟨name, val⟩ := hd
    obtain ⟨l, es⟩ := n
    simp only [getWalkRetarget, Node.entries_mk] at h
    cases hnc : assocFind es (JSVal.str name) with
    | none => simp [hnc] at h
    | some nc =>
      simp only [hnc] at h
      cases hvc : assocFind nc.entries val with
      | none => simp [hvc] at h
      | some vc =>
        simp only [hvc] at h
        cases hr : getWalkRetarget vc rest key with
        | none => simp [hr] at h
        | some pn =>
          obtain ⟨p', vc'⟩ := pn
          simp only [hr, Option.some.injEq, Prod.mk.injEq] at h
          obtain ⟨hp, hn'⟩ := h
          subst hn'
          subst hp
          cases qs with
          | nil => simp [findWalk]
          | cons qhd qrest =>
            obtain ⟨qn, qv⟩ := qhd
            by_cases hqn : qn = name
            · subst hqn
              simp only [findWalk, Node.entries_mk, assocFind_assocSet_self, hnc]
              by_cases hqv : qv = val
              · subst hqv
                have htl : qrest ≠ rest := fun hh => hne (by rw [hh])
                simp only [assocFind_assocSet_self, hvc]
                exact ih qrest vc vc' hr htl
              · have hqv' : qv ≠ val := hqv
                simp only [assocFind_assocSet_ne _ _ _ _ hqv']
            · have hqn' : JSVal.str qn ≠ JSVal.str name := fun hh => hqn (by injection hh)
              simp only [findWalk, Node.entries_mk, assocFind_assocSet_ne _ _ _ _ hqn', hnc]

/-! ### Instance-level lemmas -/

@[simp] theorem EKMap.putTree_map {V : Type} (m : EKMap V) (k : JKey) (n : Node V) :
    (m.putTree k n)._map = m._map := by
  cases k with
  | prim v => rfl
  | comp i ar ps => cases ar <;> rfl

theorem EKMap.tree_eq_side {V : Type} (m : EKMap V) (k : JKey) :
    m.tree k = if k.sideB then m._arrayTreeMap else m._objectTreeMap := by
  cases k with
  | prim v => rfl
  | comp i ar ps => cases ar <;> rfl

theorem EKMap.tree_putTree {V : Type} (m : EKMap V) (k k' : JKey) (n : Node V) :
    (m.putTree k n).tree k' = if k'.sideB = k.sideB then n else m.tree k' := by
  cases k with
  | prim v =>
    cases k' with
    | prim w => rfl
    | comp i' ar' ps' =>
      simp only [JKey.sideB]
      cases ar' <;> rfl
  | comp i ar ps =>
    cases k' with
    | prim w =>
      simp only [JKey.sideB]
      cases ar <;> rfl
    | comp i' ar' ps' =>
      simp only [JKey.sideB]
      cases ar <;> cases ar' <;> rfl

theorem EKMap.map_set_comp {V : Type} (m : EKMap V) (i : Nat) (ar : Bool)
    (ps : List (String × JSVal)) (v : Option V) :
    (m.set (JKey.comp i ar ps) v)._map =
      assocSet
        (match findWalk (m.tree (JKey.comp i ar ps))
            (EKMap.sortedProps (JKey.comp i ar ps)) with
         | some (k0, _) => assocDelete m._map k0
         | none => m._map)
        (JKey.comp i ar ps) (.vpair (JKey.comp i ar ps) v) := by
  simp only [EKMap.set, EKMap.putTree_map]

theorem EKMap.tree_set_comp {V : Type} (m : EKMap V) (i : Nat) (ar : Bool)
    (ps : List (String × JSVal)) (v : Option V) (k' : JKey) :
    (m.set (JKey.comp i ar ps) v).tree k' =
      if k'.sideB = ar then
        setWalk (m.tree (JKey.comp i ar ps)) (EKMap.sortedProps (JKey.comp i ar ps))
          (JKey.comp i ar ps, v)
      else m.tree k' := by
  simp only [EKMap.set]
  rw [EKMap.tree_putTree]
  rfl

@[simp] theorem EKMap.map_set_prim {V : Type} (m : EKMap V) (w : JSVal) (v : Option V) :
    (m.set (JKey.prim w) v)._map = assocSet m._map (JKey.prim w) (.direct v) := rfl

@[simp] theorem EKMap.tree_set_prim {V : Type} (m : EKMap V) (w : JSVal)
    (v : Option V) (k' : JKey) : (m.set (JKey.prim w) v).tree k' = m.tree k' := by
  cases k' with
  | prim u => rfl
  | comp i ar ps => cases ar <;> rfl

@[simp] theorem JKey.sideB_comp (i : Nat) (ar : Bool) (ps : List (String × JSVal)) :
    (JKey.comp i ar ps).sideB = ar := rfl

theorem EKMap.sortedProps_comp (i : Nat) (ar : Bool)
    (ps : List (String × JSVal)) :
    EKMap.sortedProps (JKey.comp i ar ps) = sortProps ps := rfl

theorem JKey.equivB_comp_iff {i i' : Nat} {ar ar' : Bool}
    {ps ps' : List (String × JSVal)} :
    JKey.equivB (JKey.comp i ar ps) (JKey.comp i' ar' ps') = true ↔
      ar = ar' ∧ sortProps ps = sortProps ps' := by
  simp [JKey.equivB]

theorem JKey.equivB_refl (k : JKey) : JKey.equivB k k = true := by
  cases k <;> simp [JKey.equivB]

/-- For two composite keys, equivalence says exactly: same tree side and same
walked path. -/
theorem JKey.equivB_comp_side_path {i i' : Nat} {ar ar' : Bool}
    {ps ps' : List (String × JSVal)}
    (h : JKey.equivB (JKey.comp i ar ps) (JKey.comp i' ar' ps') = true) :
    (JKey.comp i ar ps).sideB = (JKey.comp i' ar' ps').sideB ∧
      EKMap.sortedProps (JKey.comp i ar ps) = EKMap.sortedProps (JKey.comp i' ar' ps') := by
  obtain ⟨h1, h2⟩ := JKey.equivB_comp_iff.mp h
  exact ⟨by simpa using h1, by simpa using h2⟩

/-- The well-formedness of one `_map` entry: a primitive key stores a direct
value; a composite key stores the `[keyRef, value]` pair whose key reference
is this entry's key and which the tree walk finds at the key's own path. -/
def EKMap.entryGood {V : Type} [DecidableEq V] (m : EKMap V) :
    JKey × MapEntry V → Bool
  | (JKey.prim _, MapEntry.direct _) => true
  | (JKey.prim _, MapEntry.vpair _ _) => false
  | (JKey.comp _ _ _, MapEntry.direct _) => false
  | (JKey.comp i ar ps, MapEntry.vpair r v) =>
    decide (r = JKey.comp i ar ps) &&
    decide (findWalk (m.tree (JKey.comp i ar ps))
      (EKMap.sortedProps (JKey.comp i ar ps)) = some (JKey.comp i ar ps, v))

/-- The coherence invariant of a map instance: the backing `_map` has
distinct keys and every entry is well formed. -/
def EKMap.coherent {V : Type} [DecidableEq V] (m : EKMap V) : Bool :=
  (m._map.map Prod.fst).Nodup && m._map.all (EKMap.entryGood m)

theorem EKMap.coherent_nodup {V : Type} [DecidableEq V] {m : EKMap V}
    (hco : m.coherent = true) : (m._map.map Prod.fst).Nodup := by
  have := (Bool.and_eq_true _ _).mp hco
  exact of_decide_eq_true this.1

theorem EKMap.coherent_of_parts {V : Type} [DecidableEq V] {m : EKMap V}
    (h1 : (m._map.map Prod.fst).Nodup)
    (h2 : ∀ p ∈ m._map, EKMap.entryGood m p = true) : m.coherent = true := by
  have : m._map.all (EKMap.entryGood m) = true := List.all_eq_true.mpr h2
  simp [EKMap.coherent, this, h1]

theorem EKMap.entryGood_comp_elim {V : Type} [DecidableEq V] {m : EKMap V}
    {i : Nat} {ar : Bool} {ps : List (String × JSVal)} {e : MapEntry V}
    (hgood : EKMap.entryGood m (JKey.comp i ar ps, e) = true) :
    ∃ v, e = .vpair (JKey.comp i ar ps) v ∧
      findWalk (m.tree (JKey.comp i ar ps)) (EKMap.sortedProps (JKey.comp i ar ps)) =
        some (JKey.comp i ar ps, v) := by
  cases e with
  | direct v => simp [EKMap.entryGood] at hgood
  | vpair r v =>
    simp only [EKMap.entryGood, Bool.and_eq_true, decide_eq_true_eq] at hgood
    exact ⟨v, by rw [hgood.1], hgood.2⟩

theorem EKMap.entryGood_comp_intro {V : Type} [DecidableEq V] {m : EKMap V}
    {i : Nat} {ar : Bool} {ps : List (String × JSVal)} {v : Option V}
    (hfw : findWalk (m.tree (JKey.comp i ar ps))
      (EKMap.sortedProps (JKey.comp i ar ps)) = some (JKey.comp i ar ps, v)) :
    EKMap.entryGood m (JKey.comp i ar ps, .vpair (JKey.comp i ar ps) v) = true := by
  simp [EKMap.entryGood, hfw]

theorem EKMap.coherent_comp_mem {V : Type} [DecidableEq V] {m : EKMap V}
    (hco : m.coherent = true) {i : Nat} {ar : Bool} {ps : List (String × JSVal)}
    {e : MapEntry V} (hmem : (JKey.comp i ar ps, e) ∈ m._map) :
    ∃ v, e = .vpair (JKey.comp i ar ps) v ∧
      findWalk (m.tree (JKey.comp i ar ps)) (EKMap.sortedProps (JKey.comp i ar ps)) =
        some (JKey.comp i ar ps, v) := by
  have hall := (Bool.and_eq_true _ _).mp hco
  exact EKMap.entryGood_comp_elim (List.all_eq_true.mp hall.2 _ hmem)

theorem EKMap.coherent_prim_mem {V : Type} [DecidableEq V] {m : EKMap V}
    (hco : m.coherent = true) {w : JSVal} {e : MapEntry V}
    (hmem : (JKey.prim w, e) ∈ m._map) : ∃ v, e = .direct v := by
  have hall := (Bool.and_eq_true _ _).mp hco
  have hthis := List.all_eq_true.mp hall.2 _ hmem
  cases e with
  | direct v => exact ⟨v, rfl⟩
  | vpair r v => simp [EKMap.entryGood] at hthis

@[simp] theorem EKMap.coherent_empty {V : Type} [DecidableEq V] :
    (EKMap.empty : EKMap V).coherent = true := rfl

theorem assocFind_assocDelete_none {α β : Type} [DecidableEq α]
    (l : List (α × β)) (a a' : α) (h : assocFind l a' = none) :
    assocFind (assocDelete l a) a' = none := by
  by_cases hh : a' = a
  · subst hh; exact assocFind_assocDelete_self l a'
  · rw [assocFind_assocDelete_ne l a a' hh]; exact h

@[simp] theorem EKMap.tree_withMap {V : Type} (m : EKMap V)
    (x : List (JKey × MapEntry V)) (k : JKey) :
    ({ m with _map := x } : EKMap V).tree k = m.tree k := by
  cases k with
  | prim v => rfl
  | comp i ar ps => cases ar <;> rfl

theorem EKMap.getValuePair_fast {V : Type} (m : EKMap V) (k k0 : JKey)
    (v : Option V) (h : assocFind m._map k = some (.vpair k0 v)) :
    EKMap.getValuePair m k = (some (k0, v), m) := by
  simp [EKMap.getValuePair, h]

theorem EKMap.getValuePair_state_fast {V : Type} (m : EKMap V) (k : JKey)
    (e : MapEntry V) (h : assocFind m._map k = some e) :
    (EKMap.getValuePair m k).2 = m := by
  cases e with
  | direct v => simp [EKMap.getValuePair, h]
  | vpair k0 v => simp [EKMap.getValuePair, h]

/-- On a `_map` miss, the result of `getValuePair` is the pure tree walk's
pair with the key reference rebound to the requested key. -/
theorem EKMap.getValuePair_tree_fst {V : Type} (m : EKMap V) (k : JKey)
    (hfm : assocFind m._map k = none) :
    (EKMap.getValuePair m k).1 =
      (findWalk (m.tree k) (EKMap.sortedProps k)).map (fun p => (k, p.2)) := by
  simp only [EKMap.getValuePair, hfm]
  cases hr : getWalkRetarget (m.tree k) (EKMap.sortedProps k) k with
  | none =>
    have := getWalkRetarget_fst (EKMap.sortedProps k) (m.tree k) k
    rw [hr] at this
    simp [← this]
  | some pn =>
    obtain ⟨⟨k0, v⟩, n'⟩ := pn
    have := getWalkRetarget_fst (EKMap.sortedProps k) (m.tree k) k
    rw [hr] at this
    simp [← this]

/-- Setting a key and reading the very same key back hits the `_map` fast
path and yields the just-stored value, whatever the prior state. -/
theorem EKMap.get_set_self {V : Type} (m : EKMap V) (k : JKey) (v : Option V) :
    ((m.set k v).get k).1 = v := by
  cases k with
  | prim w => simp [EKMap.get, assocFind_assocSet_self]
  | comp i ar ps =>
    simp [EKMap.get, EKMap.getValuePair, EKMap.map_set_comp,
      assocFind_assocSet_self]

/-- `has` after `set` of the very same key is true, whatever the prior
state (even when the stored value is `undefined`). -/
theorem EKMap.has_set_self {V : Type} (m : EKMap V) (k : JKey) (v : Option V) :
    ((m.set k v).has k).1 = true := by
  cases k with
  | prim w => simp [EKMap.has, assocFind_assocSet_self]
  | comp i ar ps =>
    simp [EKMap.has, EKMap.getValuePair, EKMap.map_set_comp,
      assocFind_assocSet_self]

/-- Setting a composite key and reading any *equivalent* composite key (same
kind, same sorted property walk) finds the stored pair: on a coherent map,
either by the fast path (same reference) or by the tree walk after the old
reference's eviction. -/
theorem EKMap.getValuePair_set_equiv {V : Type} [DecidableEq V] (m : EKMap V)
    {i i' : Nat} {ar ar' : Bool} {ps ps' : List (String × JSVal)} (v : Option V)
    (hco : m.coherent = true)
    (heq : JKey.equivB (JKey.comp i' ar' ps') (JKey.comp i ar ps) = true) :
    (EKMap.getValuePair (m.set (JKey.comp i' ar' ps') v) (JKey.comp i ar ps)).1 =
      some (JKey.comp i ar ps, v) := by
  obtain ⟨hside, hpath⟩ := JKey.equivB_comp_side_path heq
  have htree : m.tree (JKey.comp i' ar' ps') = m.tree (JKey.comp i ar ps) := by
    rw [EKMap.tree_eq_side, EKMap.tree_eq_side, hside]
  by_cases hkk : JKey.comp i' ar' ps' = JKey.comp i ar ps
  · rw [hkk]
    simp [EKMap.getValuePair, EKMap.map_set_comp, assocFind_assocSet_self]
  · -- Different references: the fast path misses (the old reference of the
    -- class, if any, was evicted by `set`), and the tree walk finds the new
    -- pair at the shared path.
    have hfast : assocFind (m.set (JKey.comp i' ar' ps') v)._map
        (JKey.comp i ar ps) = none := by
      rw [EKMap.map_set_comp]
      rw [assocFind_assocSet_ne _ _ _ _ (Ne.symm hkk)]
      cases hfm : assocFind m._map (JKey.comp i ar ps) with
      | none =>
        cases hold : findWalk (m.tree (JKey.comp i' ar' ps'))
            (EKMap.sortedProps (JKey.comp i' ar' ps')) with
        | none => simpa using hfm
        | some p =>
          obtain ⟨k0, w⟩ := p
          simpa using assocFind_assocDelete_none _ _ _ hfm
      | some e =>
        obtain ⟨vk, he, hfw⟩ := EKMap.coherent_comp_mem hco
          (assocFind_mem _ _ _ hfm)
        have hold : findWalk (m.tree (JKey.comp i' ar' ps'))
            (EKMap.sortedProps (JKey.comp i' ar' ps')) =
            some (JKey.comp i ar ps, vk) := by
          rw [htree, hpath]; exact hfw
        rw [hold]
        simpa using assocFind_assocDelete_self m._map (JKey.comp i ar ps)
    have htree' : (m.set (JKey.comp i' ar' ps') v).tree (JKey.comp i ar ps) =
        setWalk (m.tree (JKey.comp i' ar' ps'))
          (EKMap.sortedProps (JKey.comp i' ar' ps')) (JKey.comp i' ar' ps', v) := by
      rw [EKMap.tree_set_comp]
      simp only [JKey.sideB_comp] at hside ⊢
      rw [if_pos hside.symm]
    rw [EKMap.getValuePair_tree_fst _ _ hfast, htree', ← hpath,
      findWalk_setWalk_self]
    rfl

/-- `get` after `set` of an equivalent composite key returns the stored
value. -/
theorem EKMap.get_set_equiv {V : Type} [DecidableEq V] (m : EKMap V)
    {i i' : Nat} {ar ar' : Bool} {ps ps' : List (String × JSVal)} (v : Option V)
    (hco : m.coherent = true)
    (heq : JKey.equivB (JKey.comp i' ar' ps') (JKey.comp i ar ps) = true) :
    ((m.set (JKey.comp i' ar' ps') v).get (JKey.comp i ar ps)).1 = v := by
  simp [EKMap.get, EKMap.getValuePair_set_equiv m v hco heq]

/-- `has` after `set` of an equivalent composite key is true. -/
theorem EKMap.has_set_equiv {V : Type} [DecidableEq V] (m : EKMap V)
    {i i' : Nat} {ar ar' : Bool} {ps ps' : List (String × JSVal)} (v : Option V)
    (hco : m.coherent = true)
    (heq : JKey.equivB (JKey.comp i' ar' ps') (JKey.comp i ar ps) = true) :
    ((m.set (JKey.comp i' ar' ps') v).has (JKey.comp i ar ps)).1 = true := by
  simp [EKMap.has, EKMap.getValuePair_set_equiv m v hco heq]

theorem EKMap.getValuePair_tree_snd {V : Type} (m : EKMap V) (k : JKey)
    (hfm : assocFind m._map k = none) :
    ((EKMap.getValuePair m k).1).map Prod.snd =
      (findWalk (m.tree k) (EKMap.sortedProps k)).map Prod.snd := by
  rw [EKMap.getValuePair_tree_fst _ _ hfm, Option.map_map]
  rfl

/-- Setting any non-equivalent key does not change what `getValuePair` finds
for a composite key (on a coherent map): the entry is untouched, or — when
the set evicted this key's reference from `_map` — the tree walk still finds
the same pair. -/
theorem EKMap.getValuePair_set_ne {V : Type} [DecidableEq V] (m : EKMap V)
    {i : Nat} {ar : Bool} {ps : List (String × JSVal)} (k' : JKey) (v' : Option V)
    (hco : m.coherent = true)
    (hne : JKey.equivB (JKey.comp i ar ps) k' = false) :
    (EKMap.getValuePair (m.set k' v') (JKey.comp i ar ps)).1 =
      (EKMap.getValuePair m (JKey.comp i ar ps)).1 := by
  cases k' with
  | prim w =>
    have hne' : JKey.comp i ar ps ≠ JKey.prim w := by simp
    cases hfm : assocFind m._map (JKey.comp i ar ps) with
    | some e =>
      have hL : assocFind (m.set (JKey.prim w) v')._map (JKey.comp i ar ps) =
          some e := by
        rw [EKMap.map_set_prim, assocFind_assocSet_ne _ _ _ _ hne']; exact hfm
      rw [EKMap.map_set_prim] at hL
      cases e with
      | direct u => simp [EKMap.getValuePair, hL, hfm]
      | vpair k0 u => simp [EKMap.getValuePair, hL, hfm]
    | none =>
      have hL : assocFind (m.set (JKey.prim w) v')._map (JKey.comp i ar ps) =
          none := by
        rw [EKMap.map_set_prim, assocFind_assocSet_ne _ _ _ _ hne']; exact hfm
      rw [EKMap.getValuePair_tree_fst _ _ hL, EKMap.getValuePair_tree_fst _ _ hfm,
        EKMap.tree_set_prim]
  | comp i2 ar2 ps2 =>
    have hkk : JKey.comp i ar ps ≠ JKey.comp i2 ar2 ps2 := by
      intro h
      rw [h, JKey.equivB_refl] at hne
      cases hne
    have hnesp : ar = ar2 → ¬ sortProps ps = sortProps ps2 := by
      intro h1 h2
      rw [show JKey.equivB (JKey.comp i ar ps) (JKey.comp i2 ar2 ps2) =
        (decide (ar = ar2) && decide (sortProps ps = sortProps ps2)) from rfl] at hne
      simp [h1, h2] at hne
    -- The walk at this key's path is untouched by the set.
    have hfwpres : findWalk ((m.set (JKey.comp i2 ar2 ps2) v').tree (JKey.comp i ar ps))
        (EKMap.sortedProps (JKey.comp i ar ps)) =
        findWalk (m.tree (JKey.comp i ar ps)) (EKMap.sortedProps (JKey.comp i ar ps)) := by
      rw [EKMap.tree_set_comp]
      simp only [JKey.sideB_comp]
      by_cases hs : ar = ar2
      · rw [if_pos hs]
        have hpne : EKMap.sortedProps (JKey.comp i ar ps) ≠
            EKMap.sortedProps (JKey.comp i2 ar2 ps2) := by
          simpa using hnesp hs
        rw [findWalk_setWalk_ne _ _ _ _ hpne]
        have : m.tree (JKey.comp i2 ar2 ps2) = m.tree (JKey.comp i ar ps) := by
          rw [EKMap.tree_eq_side, EKMap.tree_eq_side]
          simp [hs]
        rw [this]
      · rw [if_neg hs]
    cases hfm : assocFind m._map (JKey.comp i ar ps) with
    | none =>
      have hL : assocFind (m.set (JKey.comp i2 ar2 ps2) v')._map
          (JKey.comp i ar ps) = none := by
        rw [EKMap.map_set_comp, assocFind_assocSet_ne _ _ _ _ hkk]
        cases hold : findWalk (m.tree (JKey.comp i2 ar2 ps2))
            (EKMap.sortedProps (JKey.comp i2 ar2 ps2)) with
        | none => simpa using hfm
        | some p =>
          obtain ⟨k0, w⟩ := p
          simpa using assocFind_assocDelete_none _ _ _ hfm
      rw [EKMap.getValuePair_tree_fst _ _ hL, EKMap.getValuePair_tree_fst _ _ hfm,
        hfwpres]
    | some e =>
      obtain ⟨vk, he, hfw⟩ := EKMap.coherent_comp_mem hco (assocFind_mem _ _ _ hfm)
      subst he
      rw [EKMap.getValuePair_fast _ _ _ _ hfm]
      cases hold : findWalk (m.tree (JKey.comp i2 ar2 ps2))
          (EKMap.sortedProps (JKey.comp i2 ar2 ps2)) with
      | none =>
        have hL : assocFind (m.set (JKey.comp i2 ar2 ps2) v')._map
            (JKey.comp i ar ps) = some (.vpair (JKey.comp i ar ps) vk) := by
          rw [EKMap.map_set_comp, assocFind_assocSet_ne _ _ _ _ hkk, hold]
          exact hfm
        rw [EKMap.getValuePair_fast _ _ _ _ hL]
      | some p =>
        obtain ⟨k0, w⟩ := p
        by_cases hk0 : k0 = JKey.comp i ar ps
        · -- the set evicted this key's reference; the walk still finds it
          subst hk0
          have hL : assocFind (m.set (JKey.comp i2 ar2 ps2) v')._map
              (JKey.comp i ar ps) = none := by
            rw [EKMap.map_set_comp, assocFind_assocSet_ne _ _ _ _ hkk, hold]
            simpa using assocFind_assocDelete_self m._map (JKey.comp i ar ps)
          rw [EKMap.getValuePair_tree_fst _ _ hL, hfwpres, hfw]
          rfl
        · have hL : assocFind (m.set (JKey.comp i2 ar2 ps2) v')._map
              (JKey.comp i ar ps) = some (.vpair (JKey.comp i ar ps) vk) := by
            rw [EKMap.map_set_comp, assocFind_assocSet_ne _ _ _ _ hkk, hold]
            rw [assocFind_assocDelete_ne _ _ _ (fun h => hk0 h.symm)]
            exact hfm
          rw [EKMap.getValuePair_fast _ _ _ _ hL]

/-- The `_map` and trees of the state `getValuePair` leaves behind after a
tree-walk hit: old reference evicted, requested key cached, walked tree
stored back on the key's side. -/
theorem EKMap.getValuePair_state_comp {V : Type} (m : EKMap V)
    {j : Nat} {br : Bool} {qs : List (String × JSVal)} {k0 : JKey}
    {v : Option V} {tree' : Node V}
    (hfm : assocFind m._map (JKey.comp j br qs) = none)
    (hr : getWalkRetarget (m.tree (JKey.comp j br qs))
      (EKMap.sortedProps (JKey.comp j br qs)) (JKey.comp j br qs) =
      some ((k0, v), tree')) :
    ((EKMap.getValuePair m (JKey.comp j br qs)).2)._map =
      assocSet (assocDelete m._map k0) (JKey.comp j br qs)
        (MapEntry.vpair (JKey.comp j br qs) v) ∧
    ∀ t : JKey, ((EKMap.getValuePair m (JKey.comp j br qs)).2).tree t =
      if t.sideB = br then tree' else m.tree t := by
  constructor
  · simp [EKMap.getValuePair, hfm, hr]
  · intro t
    simp [EKMap.getValuePair, hfm, hr, EKMap.tree_putTree]

/-- The state left behind by `getValuePair`'s key-reference rebinding gives
every composite key the same `get`-visible value as before (the pair's key
reference may change, its value component never does). -/
theorem EKMap.getValuePair_retarget_preserve {V : Type} [DecidableEq V]
    (m : EKMap V) {j : Nat} {br : Bool} {qs : List (String × JSVal)}
    {i2 : Nat} {ar2 : Bool} {ps2 : List (String × JSVal)}
    (hco : m.coherent = true) :
    ((EKMap.getValuePair ((EKMap.getValuePair m (JKey.comp j br qs)).2)
        (JKey.comp i2 ar2 ps2)).1).map Prod.snd =
      ((EKMap.getValuePair m (JKey.comp i2 ar2 ps2)).1).map Prod.snd := by
  cases hfm : assocFind m._map (JKey.comp j br qs) with
  | some e =>
    rw [EKMap.getValuePair_state_fast _ _ _ hfm]
  | none =>
    cases hr : getWalkRetarget (m.tree (JKey.comp j br qs))
        (EKMap.sortedProps (JKey.comp j br qs)) (JKey.comp j br qs) with
    | none =>
      have hst : (EKMap.getValuePair m (JKey.comp j br qs)).2 = m := by
        simp [EKMap.getValuePair, hfm, hr]
      rw [hst]
    | some pn =>
      obtain ⟨⟨k0, v⟩, tree'⟩ := pn
      have hfw : findWalk (m.tree (JKey.comp j br qs))
          (EKMap.sortedProps (JKey.comp j br qs)) = some (k0, v) := by
        have := getWalkRetarget_fst (EKMap.sortedProps (JKey.comp j br qs))
          (m.tree (JKey.comp j br qs)) (JKey.comp j br qs)
        rw [hr] at this
        simpa using this.symm
      have hfw' : findWalk tree' (EKMap.sortedProps (JKey.comp j br qs)) =
          some (JKey.comp j br qs, v) :=
        findWalk_getWalkRetarget_self _ _ _ _ _ hr
      have hres : (EKMap.getValuePair m (JKey.comp j br qs)).1 =
          some (JKey.comp j br qs, v) := by
        simp [EKMap.getValuePair, hfm, hr]
      obtain ⟨hm₂map, hm₂tree⟩ := EKMap.getValuePair_state_comp m hfm hr
      set m₂ : EKMap V := (EKMap.getValuePair m (JKey.comp j br qs)).2 with hm₂
      -- the tree walk value (not reference) at any path is preserved
      have hwalkpres : ∀ (t : JKey), t.sideB = ar2 →
          (findWalk (m₂.tree t) (EKMap.sortedProps (JKey.comp i2 ar2 ps2))).map Prod.snd =
          (findWalk (m.tree t) (EKMap.sortedProps (JKey.comp i2 ar2 ps2))).map Prod.snd := by
        intro t hside
        rw [hm₂tree t, hside]
        by_cases hbr : ar2 = br
        · have htr : m.tree t = m.tree (JKey.comp j br qs) := by
            rw [EKMap.tree_eq_side, EKMap.tree_eq_side, hside, hbr]
            rfl
          rw [if_pos hbr, htr]
          by_cases hpath : EKMap.sortedProps (JKey.comp i2 ar2 ps2) =
              EKMap.sortedProps (JKey.comp j br qs)
          · rw [hpath, hfw', hfw]
            rfl
          · rw [findWalk_getWalkRetarget_ne _ _ _ _ _ _ hr hpath]
        · rw [if_neg hbr]
      by_cases htk : JKey.comp i2 ar2 ps2 = JKey.comp j br qs
      · rw [htk, hres]
        have hLfast : assocFind m₂._map (JKey.comp j br qs) =
            some (.vpair (JKey.comp j br qs) v) := by
          rw [hm₂map]; exact assocFind_assocSet_self _ _ _
        rw [EKMap.getValuePair_fast _ _ _ _ hLfast]
      · have hLfast₁ : assocFind m₂._map (JKey.comp i2 ar2 ps2) =
            assocFind (assocDelete m._map k0) (JKey.comp i2 ar2 ps2) := by
          rw [hm₂map, assocFind_assocSet_ne _ _ _ _ htk]
        by_cases htk0 : JKey.comp i2 ar2 ps2 = k0
        · -- this key's cached reference was evicted by the rebinding
          have hLnone : assocFind m₂._map (JKey.comp i2 ar2 ps2) = none := by
            rw [hLfast₁, htk0]
            exact assocFind_assocDelete_self _ _
          rw [EKMap.getValuePair_tree_snd _ _ hLnone]
          have htreeeq : m₂.tree (JKey.comp i2 ar2 ps2) =
              if ar2 = br then tree' else m.tree (JKey.comp i2 ar2 ps2) := by
            rw [hm₂tree]; rfl
          cases hfm2 : assocFind m._map (JKey.comp i2 ar2 ps2) with
          | some e2 =>
            obtain ⟨vt, he2, hfw2⟩ := EKMap.coherent_comp_mem hco
              (assocFind_mem _ _ _ hfm2)
            subst he2
            rw [EKMap.getValuePair_fast _ _ _ _ hfm2]
            rw [hwalkpres (JKey.comp i2 ar2 ps2) rfl, hfw2]
          | none =>
            rw [EKMap.getValuePair_tree_snd _ _ hfm2]
            exact hwalkpres (JKey.comp i2 ar2 ps2) rfl
        · have hLeq : assocFind m₂._map (JKey.comp i2 ar2 ps2) =
              assocFind m._map (JKey.comp i2 ar2 ps2) := by
            rw [hLfast₁, assocFind_assocDelete_ne _ _ _ htk0]
          cases hfm2 : assocFind m._map (JKey.comp i2 ar2 ps2) with
          | some e2 =>
            rw [hfm2] at hLeq
            cases e2 with
            | direct u =>
              have h1 : (EKMap.getValuePair m₂ (JKey.comp i2 ar2 ps2)).1 = none := by
                simp [EKMap.getValuePair, hLeq]
              have h2 : (EKMap.getValuePair m (JKey.comp i2 ar2 ps2)).1 = none := by
                simp [EKMap.getValuePair, hfm2]
              rw [h1, h2]
            | vpair k0' u =>
              rw [EKMap.getValuePair_fast _ _ _ _ hLeq,
                EKMap.getValuePair_fast _ _ _ _ hfm2]
          | none =>
            rw [hfm2] at hLeq
            rw [EKMap.getValuePair_tree_snd _ _ hLeq,
              EKMap.getValuePair_tree_snd _ _ hfm2]
            exact hwalkpres (JKey.comp i2 ar2 ps2) rfl

/-- A surviving `_map` entry stays well formed after a composite `set`,
provided its own path differs from the set path (same side). -/
theorem EKMap.entryGood_set_comp_survivor {V : Type} [DecidableEq V]
    {m : EKMap V} {i : Nat} {ar : Bool} {ps : List (String × JSVal)}
    {v : Option V} {p : JKey × MapEntry V}
    (hgood : EKMap.entryGood m p = true)
    (hdiff : ∀ i' ar' ps', p.1 = JKey.comp i' ar' ps' → ar' = ar →
      EKMap.sortedProps (JKey.comp i' ar' ps') ≠
        EKMap.sortedProps (JKey.comp i ar ps)) :
    EKMap.entryGood (m.set (JKey.comp i ar ps) v) p = true := by
  obtain ⟨pk, pe⟩ := p
  cases pk with
  | prim w' =>
    cases pe with
    | direct u => simp [EKMap.entryGood]
    | vpair r u => simp [EKMap.entryGood] at hgood
  | comp i' ar' ps' =>
    obtain ⟨vp, hpe, hfw⟩ := EKMap.entryGood_comp_elim hgood
    subst hpe
    apply EKMap.entryGood_comp_intro
    rw [EKMap.tree_set_comp]
    by_cases hs : ar' = ar
    · rw [if_pos (show (JKey.comp i' ar' ps').sideB = ar from hs)]
      have hpne := hdiff i' ar' ps' rfl hs
      rw [findWalk_setWalk_ne _ _ _ _ hpne]
      have htr : m.tree (JKey.comp i ar ps) = m.tree (JKey.comp i' ar' ps') := by
        rw [EKMap.tree_eq_side, EKMap.tree_eq_side]
        simp [hs]
      rw [htr]
      exact hfw
    · rw [if_neg (show ¬ (JKey.comp i' ar' ps').sideB = ar from hs)]
      exact hfw

/-- `set` preserves the coherence invariant. -/
theorem EKMap.coherent_set {V : Type} [DecidableEq V] (m : EKMap V) (k : JKey)
    (v : Option V) (hco : m.coherent = true) : (m.set k v).coherent = true := by
  have hall := ((Bool.and_eq_true _ _).mp hco).2
  cases k with
  | prim w =>
    apply EKMap.coherent_of_parts
    · rw [EKMap.map_set_prim]
      exact nodup_keys_assocSet _ _ _ (EKMap.coherent_nodup hco)
    · intro p hp
      rw [EKMap.map_set_prim] at hp
      rcases mem_assocSet _ _ _ _ hp with hnew | hold
      · subst hnew
        simp [EKMap.entryGood]
      · have hgood := List.all_eq_true.mp hall _ hold
        obtain ⟨pk, pe⟩ := p
        cases pk with
        | prim w' =>
          cases pe with
          | direct u => simp [EKMap.entryGood]
          | vpair r u => simp [EKMap.entryGood] at hgood
        | comp i' ar' ps' =>
          obtain ⟨vp, hpe, hfw⟩ := EKMap.entryGood_comp_elim hgood
          subst hpe
          exact EKMap.entryGood_comp_intro (by rw [EKMap.tree_set_prim]; exact hfw)
  | comp i ar ps =>
    have hnewGood : EKMap.entryGood (m.set (JKey.comp i ar ps) v)
        (JKey.comp i ar ps, .vpair (JKey.comp i ar ps) v) = true := by
      apply EKMap.entryGood_comp_intro
      rw [EKMap.tree_set_comp, if_pos (show (JKey.comp i ar ps).sideB = ar from rfl)]
      exact findWalk_setWalk_self _ _ _
    have hmap := EKMap.map_set_comp m i ar ps v
    cases hold : findWalk (m.tree (JKey.comp i ar ps))
        (EKMap.sortedProps (JKey.comp i ar ps)) with
    | none =>
      simp only [hold] at hmap
      apply EKMap.coherent_of_parts
      · rw [hmap]
        exact nodup_keys_assocSet _ _ _ (EKMap.coherent_nodup hco)
      · intro p hp
        rw [hmap] at hp
        rcases mem_assocSet _ _ _ _ hp with hnew | hmem
        · subst hnew; exact hnewGood
        · have hgood := List.all_eq_true.mp hall _ hmem
          obtain ⟨pk, pe⟩ := p
          apply EKMap.entryGood_set_comp_survivor hgood
          intro i' ar' ps' hpk hs hpeq
          simp only at hpk
          subst hpk
          obtain ⟨vp, hpe, hfw⟩ := EKMap.entryGood_comp_elim hgood
          have htr : m.tree (JKey.comp i' ar' ps') = m.tree (JKey.comp i ar ps) := by
            rw [EKMap.tree_eq_side, EKMap.tree_eq_side]
            simp [hs]
          rw [htr, hpeq, hold] at hfw
          cases hfw
    | some p0 =>
      obtain ⟨k0, w⟩ := p0
      simp only [hold] at hmap
      apply EKMap.coherent_of_parts
      · rw [hmap]
        exact nodup_keys_assocSet _ _ _
          (nodup_keys_assocDelete _ _ (EKMap.coherent_nodup hco))
      · intro p hp
        rw [hmap] at hp
        rcases mem_assocSet _ _ _ _ hp with hnew | hmem1
        · subst hnew; exact hnewGood
        · obtain ⟨hmem, hnek0⟩ := mem_assocDelete _ _ _ hmem1
          have hgood := List.all_eq_true.mp hall _ hmem
          obtain ⟨pk, pe⟩ := p
          simp only at hnek0
          apply EKMap.entryGood_set_comp_survivor hgood
          intro i' ar' ps' hpk hs hpeq
          simp only at hpk
          subst hpk
          obtain ⟨vp, hpe, hfw⟩ := EKMap.entryGood_comp_elim hgood
          have htr : m.tree (JKey.comp i' ar' ps') = m.tree (JKey.comp i ar ps) := by
            rw [EKMap.tree_eq_side, EKMap.tree_eq_side]
            simp [hs]
          rw [htr, hpeq, hold] at hfw
          have hk0 : k0 = JKey.comp i' ar' ps' := by
            injection hfw with hfw'
            exact congrArg Prod.fst hfw'
          exact hnek0 hk0.symm

/-- `getValuePair`'s key-reference rebinding preserves the coherence
invariant. -/
theorem EKMap.coherent_getValuePair {V : Type} [DecidableEq V] (m : EKMap V)
    {j : Nat} {br : Bool} {qs : List (String × JSVal)}
    (hco : m.coherent = true) :
    ((EKMap.getValuePair m (JKey.comp j br qs)).2).coherent = true := by
  have hall := ((Bool.and_eq_true _ _).mp hco).2
  cases hfm : assocFind m._map (JKey.comp j br qs) with
  | some e => rw [EKMap.getValuePair_state_fast _ _ _ hfm]; exact hco
  | none =>
    cases hr : getWalkRetarget (m.tree (JKey.comp j br qs))
        (EKMap.sortedProps (JKey.comp j br qs)) (JKey.comp j br qs) with
    | none =>
      have hst : (EKMap.getValuePair m (JKey.comp j br qs)).2 = m := by
        simp [EKMap.getValuePair, hfm, hr]
      rw [hst]; exact hco
    | some pn =>
      obtain ⟨⟨k0, v⟩, tree'⟩ := pn
      have hfw : findWalk (m.tree (JKey.comp j br qs))
          (EKMap.sortedProps (JKey.comp j br qs)) = some (k0, v) := by
        have := getWalkRetarget_fst (EKMap.sortedProps (JKey.comp j br qs))
          (m.tree (JKey.comp j br qs)) (JKey.comp j br qs)
        rw [hr] at this
        simpa using this.symm
      have hfw' : findWalk tree' (EKMap.sortedProps (JKey.comp j br qs)) =
          some (JKey.comp j br qs, v) :=
        findWalk_getWalkRetarget_self _ _ _ _ _ hr
      obtain ⟨hm₂map, hm₂tree⟩ := EKMap.getValuePair_state_comp m hfm hr
      apply EKMap.coherent_of_parts
      · rw [hm₂map]
        exact nodup_keys_assocSet _ _ _
          (nodup_keys_assocDelete _ _ (EKMap.coherent_nodup hco))
      · intro p hp
        rw [hm₂map] at hp
        rcases mem_assocSet _ _ _ _ hp with hnew | hmem1
        · subst hnew
          apply EKMap.entryGood_comp_intro
          rw [hm₂tree (JKey.comp j br qs),
            if_pos (show (JKey.comp j br qs).sideB = br from rfl)]
          exact hfw'
        · obtain ⟨hmem, hnek0⟩ := mem_assocDelete _ _ _ hmem1
          have hgood := List.all_eq_true.mp hall _ hmem
          obtain ⟨pk, pe⟩ := p
          cases pk with
          | prim w' =>
            cases pe with
            | direct u => simp [EKMap.entryGood]
            | vpair r u => simp [EKMap.entryGood] at hgood
          | comp i' ar' ps' =>
            obtain ⟨vp, hpe, hfw_p⟩ := EKMap.entryGood_comp_elim hgood
            subst hpe
            apply EKMap.entryGood_comp_intro
            rw [hm₂tree (JKey.comp i' ar' ps')]
            by_cases hs : ar' = br
            · rw [if_pos (show (JKey.comp i' ar' ps').sideB = br from hs)]
              have htr : m.tree (JKey.comp i' ar' ps') =
                  m.tree (JKey.comp j br qs) := by
                rw [EKMap.tree_eq_side, EKMap.tree_eq_side]
                simp [hs]
              by_cases hpath : EKMap.sortedProps (JKey.comp i' ar' ps') =
                  EKMap.sortedProps (JKey.comp j br qs)
              · rw [htr, hpath, hfw] at hfw_p
                have : k0 = JKey.comp i' ar' ps' := by
                  injection hfw_p with hfw_p'
                  exact congrArg Prod.fst hfw_p'
                simp only at hnek0
                exact absurd this.symm hnek0
              · rw [findWalk_getWalkRetarget_ne _ _ _ _ _ _ hr hpath, ← htr]
                exact hfw_p
            · rw [if_neg (show ¬ (JKey.comp i' ar' ps').sideB = br from hs)]
              exact hfw_p

theorem optionBind_snd_congr {V : Type} {p q : Option (JKey × Option V)}
    (h : p.map Prod.snd = q.map Prod.snd) : p.bind Prod.snd = q.bind Prod.snd := by
  cases p with
  | none => cases q with
    | none => rfl
    | some y => simp at h
  | some x => cases q with
    | none => simp at h
    | some y =>
      obtain ⟨xk, xv⟩ := x
      obtain ⟨yk, yv⟩ := y
      simp only [Option.map_some'] at h
      simp only [Option.some_bind]
      injection h

/-- `get` result at a composite key is unchanged by a `set` of a
non-equivalent key. -/
theorem EKMap.get_set_ne {V : Type} [DecidableEq V] (m : EKMap V)
    {i : Nat} {ar : Bool} {ps : List (String × JSVal)} (k' : JKey) (v' : Option V)
    (hco : m.coherent = true)
    (hne : JKey.equivB (JKey.comp i ar ps) k' = false) :
    ((m.set k' v').get (JKey.comp i ar ps)).1 = ((m.get (JKey.comp i ar ps))).1 := by
  simp only [EKMap.get]
  rw [EKMap.getValuePair_set_ne m k' v' hco hne]

/-- `get` result at a composite key is unchanged by the state that
`getValuePair` leaves behind when reading any composite key. -/
theorem EKMap.get_retarget_preserve {V : Type} [DecidableEq V] (m : EKMap V)
    {j : Nat} {br : Bool} {qs : List (String × JSVal)}
    {i2 : Nat} {ar2 : Bool} {ps2 : List (String × JSVal)}
    (hco : m.coherent = true) :
    (((EKMap.getValuePair m (JKey.comp j br qs)).2).get (JKey.comp i2 ar2 ps2)).1 =
      ((m.get (JKey.comp i2 ar2 ps2))).1 := by
  simp only [EKMap.get]
  exact optionBind_snd_congr (EKMap.getValuePair_retarget_preserve m hco)

/-- When `getValuePair` misses, it does not mutate the instance. -/
theorem EKMap.getValuePair_state_of_none {V : Type} (m : EKMap V) (k : JKey)
    (h : (EKMap.getValuePair m k).1 = none) : (EKMap.getValuePair m k).2 = m := by
  cases hfm : assocFind m._map k with
  | some e => exact EKMap.getValuePair_state_fast _ _ _ hfm
  | none =>
    cases hr : getWalkRetarget (m.tree k) (EKMap.sortedProps k) k with
    | none => simp [EKMap.getValuePair, hfm, hr]
    | some pn =>
      obtain ⟨⟨k0, v⟩, tree'⟩ := pn
      have : (EKMap.getValuePair m k).1 = some (k, v) := by
        simp [EKMap.getValuePair, hfm, hr]
      rw [this] at h
      cases h

/-- `delete` preserves the coherence invariant. -/
theorem EKMap.coherent_delete {V : Type} [DecidableEq V] (m : EKMap V)
    {j : Nat} {br : Bool} {qs : List (String × JSVal)}
    (hco : m.coherent = true) :
    ((m.delete (JKey.comp j br qs)).2).coherent = true := by
  simp only [EKMap.delete, EKMap.has]
  cases hp : (EKMap.getValuePair m (JKey.comp j br qs)).1 with
  | none =>
    simp only [hp, Option.isSome_none, Bool.false_eq_true, if_neg]
    simp only [EKMap.getValuePair_state_of_none m _ hp]
    exact hco
  | some q =>
    simp only [hp, Option.isSome_some, if_pos]
    exact EKMap.coherent_set _ _ _ (EKMap.coherent_getValuePair m hco)

/-- Effect of `delete` on later `get`s of composite keys: the deleted
equivalence class reads as `undefined`; other classes are untouched. -/
theorem EKMap.get_delete {V : Type} [DecidableEq V] (m : EKMap V)
    {j : Nat} {br : Bool} {qs : List (String × JSVal)}
    {i2 : Nat} {ar2 : Bool} {ps2 : List (String × JSVal)}
    (hco : m.coherent = true) :
    (((m.delete (JKey.comp j br qs)).2).get (JKey.comp i2 ar2 ps2)).1 =
      if JKey.equivB (JKey.comp j br qs) (JKey.comp i2 ar2 ps2) then none
      else ((m.get (JKey.comp i2 ar2 ps2))).1 := by
  cases hp : (EKMap.getValuePair m (JKey.comp j br qs)).1 with
  | none =>
    -- `has` is false: the deleted class is absent and `delete` is a no-op
    have hdel : (m.delete (JKey.comp j br qs)).2 = m := by
      simp [EKMap.delete, EKMap.has, hp,
        EKMap.getValuePair_state_of_none m _ hp]
    rw [hdel]
    by_cases heq : JKey.equivB (JKey.comp j br qs) (JKey.comp i2 ar2 ps2) = true
    · rw [if_pos heq]
      obtain ⟨hside, hpath⟩ := JKey.equivB_comp_side_path heq
      have htr : m.tree (JKey.comp j br qs) = m.tree (JKey.comp i2 ar2 ps2) := by
        rw [EKMap.tree_eq_side, EKMap.tree_eq_side, hside]
      cases hfm : assocFind m._map (JKey.comp j br qs) with
      | some e =>
        obtain ⟨vj, hej, hfwj⟩ := EKMap.coherent_comp_mem hco
          (assocFind_mem _ _ _ hfm)
        subst hej
        rw [EKMap.getValuePair_fast _ _ _ _ hfm] at hp
        cases hp
      | none =>
        have hwalkj : findWalk (m.tree (JKey.comp j br qs))
            (EKMap.sortedProps (JKey.comp j br qs)) = none := by
          rw [EKMap.getValuePair_tree_fst _ _ hfm] at hp
          cases hw : findWalk (m.tree (JKey.comp j br qs))
              (EKMap.sortedProps (JKey.comp j br qs)) with
          | none => rfl
          | some pw =>
            rw [hw] at hp
            cases hp
        rw [htr, hpath] at hwalkj
        cases hfm2 : assocFind m._map (JKey.comp i2 ar2 ps2) with
        | some e2 =>
          obtain ⟨vt, he2, hfw2⟩ := EKMap.coherent_comp_mem hco
            (assocFind_mem _ _ _ hfm2)
          rw [hfw2] at hwalkj
          cases hwalkj
        | none =>
          simp only [EKMap.get]
          rw [EKMap.getValuePair_tree_fst _ _ hfm2, hwalkj]
          rfl
    · rw [if_neg heq]
  | some q =>
    have hdel : (m.delete (JKey.comp j br qs)).2 =
        ((EKMap.getValuePair m (JKey.comp j br qs)).2).set
          (JKey.comp j br qs) none := by
      simp [EKMap.delete, EKMap.has, hp]
    rw [hdel]
    by_cases heq : JKey.equivB (JKey.comp j br qs) (JKey.comp i2 ar2 ps2) = true
    · rw [if_pos heq]
      exact EKMap.get_set_equiv _ none (EKMap.coherent_getValuePair m hco) heq
    · rw [if_neg heq]
      have hne : JKey.equivB (JKey.comp i2 ar2 ps2) (JKey.comp j br qs) = false := by
        cases hsym : JKey.equivB (JKey.comp i2 ar2 ps2) (JKey.comp j br qs) with
        | false => rfl
        | true =>
          obtain ⟨h1, h2⟩ := JKey.equivB_comp_iff.mp hsym
          exact absurd (JKey.equivB_comp_iff.mpr ⟨h1.symm, h2.symm⟩) heq
      rw [EKMap.get_set_ne _ _ _ (EKMap.coherent_getValuePair m hco) hne]
      exact EKMap.get_retarget_preserve m hco

/-- A fold of `set`s preserves coherence. -/
theorem EKMap.coherent_foldSet {V : Type} [DecidableEq V]
    (l : List (JKey × Option V)) (acc : EKMap V) (hco : acc.coherent = true) :
    (List.foldl (fun a (p : JKey × Option V) => a.set p.1 p.2) acc l).coherent = true := by
  induction l generalizing acc with
  | nil => exact hco
  | cons p rest ih => exact ih _ (EKMap.coherent_set _ _ _ hco)

/-- The copy constructor produces a coherent instance. -/
theorem EKMap.coherent_copy {V : Type} [DecidableEq V] (m : EKMap V) :
    (m.copy).coherent = true :=
  EKMap.coherent_foldSet _ _ EKMap.coherent_empty

theorem JKey.equivB_comm : ∀ (k k' : JKey), JKey.equivB k k' = JKey.equivB k' k
  | .prim v, .prim v' => by
    simp only [JKey.equivB]
    rw [decide_eq_decide]
    exact eq_comm
  | .comp i ar ps, .comp i' ar' ps' => by
    simp only [JKey.equivB]
    rw [show (decide (ar = ar')) = (decide (ar' = ar)) from by
        rw [decide_eq_decide]; exact eq_comm,
      show (decide (sortProps ps = sortProps ps')) =
          decide (sortProps ps' = sortProps ps) from by
        rw [decide_eq_decide]; exact eq_comm]
  | .prim _, .comp _ _ _ => rfl
  | .comp _ _ _, .prim _ => rfl

@[simp] theorem getWalkRetarget_empty {V : Type} (qs : List (String × JSVal))
    (key : JKey) : getWalkRetarget (Node.empty : Node V) qs key = none := by
  cases qs with
  | nil => rfl
  | cons q rest => obtain ⟨qn, qv⟩ := q; simp [getWalkRetarget, Node.empty]

@[simp] theorem EKMap.get_empty {V : Type} (k : JKey) :
    ((EKMap.empty : EKMap V).get k).1 = none := by
  cases k with
  | prim w => rfl
  | comp i ar ps =>
    have htree : (EKMap.empty : EKMap V).tree (JKey.comp i ar ps) = Node.empty := by
      cases ar <;> rfl
    have hfm : assocFind (EKMap.empty : EKMap V)._map (JKey.comp i ar ps) = none := rfl
    simp only [EKMap.get]
    rw [EKMap.getValuePair_tree_fst _ _ hfm, htree, findWalk_empty]
    rfl

/-- A fold of `set`s over pairs that are all `undefined` on the target's
equivalence class keeps the target reading as `undefined`. -/
theorem EKMap.get_foldSet_none {V : Type} [DecidableEq V]
    (l : List (JKey × Option V)) (acc : EKMap V)
    {i : Nat} {ar : Bool} {ps : List (String × JSVal)}
    (hco : acc.coherent = true)
    (hacc : (acc.get (JKey.comp i ar ps)).1 = none)
    (hl : ∀ p ∈ l, JKey.equivB p.1 (JKey.comp i ar ps) = true → p.2 = none) :
    ((List.foldl (fun a (p : JKey × Option V) => a.set p.1 p.2) acc l).get
      (JKey.comp i ar ps)).1 = none := by
  induction l generalizing acc with
  | nil => exact hacc
  | cons p rest ih =>
    obtain ⟨pk, pv⟩ := p
    simp only [List.foldl_cons]
    apply ih _ (EKMap.coherent_set _ _ _ hco)
    · by_cases hequiv : JKey.equivB pk (JKey.comp i ar ps) = true
      · cases pk with
        | prim w => simp [JKey.equivB] at hequiv
        | comp j br qs' =>
          have hpv : pv = none :=
            hl (JKey.comp j br qs', pv) (List.mem_cons_self _ _) hequiv
          subst hpv
          exact EKMap.get_set_equiv _ none hco hequiv
      · have hne : JKey.equivB (JKey.comp i ar ps) pk = false := by
          rw [JKey.equivB_comm]
          exact Bool.eq_false_iff.mpr hequiv
        rw [EKMap.get_set_ne _ _ _ hco hne]
        exact hacc
    · intro q hq hqe
      exact hl q (List.mem_cons_of_mem _ hq) hqe

/-- The copy constructor keeps an `undefined`-reading composite key reading
as `undefined` (on a coherent source map). -/
theorem EKMap.get_copy_none {V : Type} [DecidableEq V] (m : EKMap V)
    {i : Nat} {ar : Bool} {ps : List (String × JSVal)}
    (hco : m.coherent = true)
    (hnone : (m.get (JKey.comp i ar ps)).1 = none) :
    ((m.copy).get (JKey.comp i ar ps)).1 = none := by
  apply EKMap.get_foldSet_none _ _ EKMap.coherent_empty (EKMap.get_empty _)
  intro p hp hequiv
  obtain ⟨⟨k₀, e₀⟩, hmem, heq⟩ := List.mem_map.mp hp
  cases k₀ with
  | prim w =>
    rw [← heq] at hequiv
    simp [JKey.equivB] at hequiv
  | comp j br qs' =>
    obtain ⟨vr, he₀, hfw_r⟩ := EKMap.coherent_comp_mem hco hmem
    subst he₀
    rw [← heq] at hequiv ⊢
    simp only [MapEntry.forEachValue]
    obtain ⟨hside, hpath⟩ := JKey.equivB_comp_side_path hequiv
    have htr : m.tree (JKey.comp j br qs') = m.tree (JKey.comp i ar ps) := by
      rw [EKMap.tree_eq_side, EKMap.tree_eq_side, hside]
    rw [htr, hpath] at hfw_r
    cases hfm : assocFind m._map (JKey.comp i ar ps) with
    | some e =>
      obtain ⟨vk, he, hfw_k⟩ := EKMap.coherent_comp_mem hco
        (assocFind_mem _ _ _ hfm)
      subst he
      have hget : (m.get (JKey.comp i ar ps)).1 = vk := by
        simp [EKMap.get, EKMap.getValuePair_fast _ _ _ _ hfm]
      rw [hget] at hnone
      rw [hfw_k] at hfw_r
      injection hfw_r with hfw_r'
      have := congrArg Prod.snd hfw_r'
      simp only at this
      rw [← this, hnone]
    | none =>
      have hget : (m.get (JKey.comp i ar ps)).1 = vr := by
        simp only [EKMap.get]
        rw [EKMap.getValuePair_tree_fst _ _ hfm, hfw_r]
        rfl
      rw [hget] at hnone
      exact hnone

/-! ## Resolution state machine

The reducer (`subKeysIsResolved` / `isResolved`) and the read-only queries of
the resolution-tracking store slice.  Per-selector state lives in an
`EquivalentKeyMap` keyed by the argument tuple; the record from selector name
to per-selector map is an association list in property order.

The selectors read `map.get(...)`, whose source mutates the map's `_map`
fast-path cache in place; the model reads the result component — by
`EKMap.get_retarget_preserve` that rebinding never changes any later read's
result, so the selectors are modelled as pure reads. -/

/-- A resolution status (`types.ts`). -/
inductive Status : Type where
  | resolving : Status
  | finished : Status
  | error : Status
deriving DecidableEq, Repr

/-- A per-entry resolution state value `{ status, error? }`.  For
`resolving`/`finished` values the source object has no `error` property;
reading it yields `undefined`, which `JSVal.undef` models. -/
structure StateValue : Type where
  status : Status
  error : JSVal := JSVal.undef
deriving DecidableEq, Repr

/-- Modelled from the spec: `selectorArgsToStateKey` (imported from the
resolution-data `utils`, a file not present in the sources) maps the
selector's argument tuple to the argument-tuple key of the per-selector
`EquivalentKeyMap` (spec §3: "an EquivalentKeyMap from an argument-tuple key
to a status value").  The tuple is an array, so the key is an array-kind
composite key whose own properties are the decimal indices with the
arguments as values.  The array object's reference identity is not tracked
(a fixed id): all map operations proved above treat keys per equivalence
class, so no modelled result depends on it. -/
def selectorArgsToStateKey (args : List JSVal) : JKey :=
  JKey.comp 0 true (args.enum.map (fun p => (toString p.1, p.2)))

/-- The resolution actions, as built by the action creators in `actions.ts`
(`startResolution`, `finishResolution`, `failResolution`, their batch
variants, and the invalidation actions). -/
inductive RAction : Type where
  | startResolution (selectorName : String) (args : List JSVal) : RAction
  | finishResolution (selectorName : String) (args : List JSVal) : RAction
  | failResolution (selectorName : String) (args : List JSVal) (error : JSVal) : RAction
  | startResolutions (selectorName : String) (args : List (List JSVal)) : RAction
  | finishResolutions (selectorName : String) (args : List (List JSVal)) : RAction
  | failResolutions (selectorName : String) (args : List (List JSVal))
      (errors : List JSVal) : RAction
  | invalidateResolution (selectorName : String) (args : List JSVal) : RAction
  | invalidateResolutionForStore : RAction
  | invalidateResolutionForStoreSelector (selectorName : String) : RAction
deriving DecidableEq

/-- The `selectorName` property of an action (absent only on
`INVALIDATE_RESOLUTION_FOR_STORE`). -/
def RAction.selectorName? : RAction → Option String
  | .startResolution n _ => some n
  | .finishResolution n _ => some n
  | .failResolution n _ _ => some n
  | .startResolutions n _ => some n
  | .finishResolutions n _ => some n
  | .failResolutions n _ _ => some n
  | .invalidateResolution n _ => some n
  | .invalidateResolutionForStore => none
  | .invalidateResolutionForStoreSelector n => some n

/-- The state of the resolution slice: selector name → per-selector map. -/
def RState : Type := List (String × EKMap StateValue)

/-- The inner reducer of `subKeysIsResolved` (`reducer.ts`), acting on one
selector's `EquivalentKeyMap`.  Every handled action first copies the map
(`new EquivalentKeyMap(state)`) and then writes through `set`/`delete`. -/
def subKeysReduce (state : EKMap StateValue) (action : RAction) : EKMap StateValue :=
  match action with
  | .startResolution _ args =>
    (state.copy).set (selectorArgsToStateKey args) (some ⟨Status.resolving, JSVal.undef⟩)
  | .finishResolution _ args =>
    (state.copy).set (selectorArgsToStateKey args) (some ⟨Status.finished, JSVal.undef⟩)
  | .failResolution _ args err =>
    (state.copy).set (selectorArgsToStateKey args) (some ⟨Status.error, err⟩)
  | .startResolutions _ argsList =>
    argsList.foldl (fun acc args =>
      acc.set (selectorArgsToStateKey args) (some ⟨Status.resolving, JSVal.undef⟩))
      state.copy
  | .finishResolutions _ argsList =>
    argsList.foldl (fun acc args =>
      acc.set (selectorArgsToStateKey args) (some ⟨Status.finished, JSVal.undef⟩))
      state.copy
  | .failResolutions _ argsList errors =>
    -- `resolutionState.error` is assigned only when `action.errors[idx]` is
    -- truthy, else it stays `undefined`.
    argsList.enum.foldl (fun acc p =>
      let err := errors.getD p.1 JSVal.undef
      acc.set (selectorArgsToStateKey p.2)
        (some ⟨Status.error, if err.truthy then err else JSVal.undef⟩))
      state.copy
  | .invalidateResolution _ args =>
    ((state.copy).delete (selectorArgsToStateKey args)).2
  | _ => state

/-- Modelled from the spec: `onSubKey('selectorName')` (from the
resolution-data `utils`, a file not present in the sources) routes the inner
reducer to the state slice under the action's `selectorName` (spec §3: "a
mapping from selector name to an EquivalentKeyMap", mutated only via the
resolution actions), defaulting the slice to a fresh map.  The source's
same-reference shortcut (returning the record unchanged when the sub-state
is identical) is value-level invisible here. -/
def subKeysIsResolved (state : RState) (action : RAction) : RState :=
  match action.selectorName? with
  | none => state
  | some name =>
    let keyState := (assocFind state name).getD EKMap.empty
    assocSet state name (subKeysReduce keyState action)

/-- The top-level resolution reducer `isResolved` (`reducer.ts`). -/
def isResolved (state : RState) (action : RAction) : RState :=
  match action with
  | .invalidateResolutionForStore => []
  | .invalidateResolutionForStoreSelector name =>
    if (assocFind state name).isSome then assocDelete state name else state
  | _ => subKeysIsResolved state action

/-- Applying a list of dispatched actions in order. -/
def applyActions (state : RState) (actions : List RAction) : RState :=
  actions.foldl isResolved state

/-- The initial resolution state (no entries). -/
def initialRState : RState := []

/-- `getResolutionState` (`selectors.ts`): the raw entry for a selector name
and argument tuple, `undefined` when the selector has no map or the map has
no (live) entry. -/
def getResolutionState (state : RState) (selectorName : String)
    (args : List JSVal) : Option StateValue :=
  match assocFind state selectorName with
  | none => none
  | some map => (map.get (selectorArgsToStateKey args)).1

/-- `hasStartedResolution`: the entry exists. -/
def hasStartedResolution (state : RState) (selectorName : String)
    (args : List JSVal) : Bool :=
  (getResolutionState state selectorName args).isSome

/-- `hasFinishedResolution`: status is `finished` or `error`. -/
def hasFinishedResolution (state : RState) (selectorName : String)
    (args : List JSVal) : Bool :=
  match getResolutionState state selectorName args with
  | some sv => sv.status = Status.finished || sv.status = Status.error
  | none => false

/-- `hasResolutionFailed`: `getResolutionState(...)?.status === 'error'`. -/
def hasResolutionFailed (state : RState) (selectorName : String)
    (args : List JSVal) : Bool :=
  match getResolutionState state selectorName args with
  | some sv => sv.status = Status.error
  | none => false

/-- `getResolutionError`: the stored error when the status is `'error'`,
else `null`. -/
def getResolutionError (state : RState) (selectorName : String)
    (args : List JSVal) : JSVal :=
  match getResolutionState state selectorName args with
  | some sv => if sv.status = Status.error then sv.error else JSVal.null
  | none => JSVal.null

/-- `isResolving`: `getResolutionState(...)?.status === 'resolving'`. -/
def isResolving (state : RState) (selectorName : String)
    (args : List JSVal) : Bool :=
  match getResolutionState state selectorName args with
  | some sv => sv.status = Status.resolving
  | none => false

/-- `Array.prototype.some` over a list with a callback that may crash
(`none`), the crash propagating. -/
def listSomeM {α : Type} (f : α → Option Bool) : List α → Option Bool
  | [] => some false
  | x :: rest =>
    match f x with
    | none => none
    | some true => some true
    | some false => listSomeM f rest

/-- The callback of `hasResolvingSelectors`:
`(_, resolution) => resolution.status === 'resolving'`.  On an orphaned
entry the received `resolution` is `undefined` and reading `.status` throws
a `TypeError` (modelled as `none`). -/
def resolvingCallback : JKey → Option StateValue → Option Bool :=
  fun _ r =>
    match r with
    | some sv => some (decide (sv.status = Status.resolving))
    | none => none

/-- `hasResolvingSelectors` (`selectors.ts`):
`Object.values(state).some((selectorState) => selectorState.some((_,
resolution) => resolution.status === 'resolving'))`, with a `TypeError`
modelled as `none`. -/
def hasResolvingSelectors (state : RState) : Option Bool :=
  listSomeM (fun p => p.2.someM resolvingCallback) state

/-- Coherence of a whole resolution record. -/
def RState.coherent (s : RState) : Bool := s.all (fun p => p.2.coherent)

/-- Whether an action writes a resolution entry for the given selector name
and an argument tuple the data structure treats as the same entry
(equivalent argument-tuple key).  Invalidation actions never create an
entry. -/
def RAction.targets (a : RAction) (n : String) (args : List JSVal) : Bool :=
  match a with
  | .startResolution n' args' =>
    n' = n && JKey.equivB (selectorArgsToStateKey args') (selectorArgsToStateKey args)
  | .finishResolution n' args' =>
    n' = n && JKey.equivB (selectorArgsToStateKey args') (selectorArgsToStateKey args)
  | .failResolution n' args' _ =>
    n' = n && JKey.equivB (selectorArgsToStateKey args') (selectorArgsToStateKey args)
  | .startResolutions n' argsList =>
    n' = n && argsList.any (fun args' =>
      JKey.equivB (selectorArgsToStateKey args') (selectorArgsToStateKey args))
  | .finishResolutions n' argsList =>
    n' = n && argsList.any (fun args' =>
      JKey.equivB (selectorArgsToStateKey args') (selectorArgsToStateKey args))
  | .failResolutions n' argsList _ =>
    n' = n && argsList.any (fun args' =>
      JKey.equivB (selectorArgsToStateKey args') (selectorArgsToStateKey args))
  | .invalidateResolution _ _ => false
  | .invalidateResolutionForStore => false
  | .invalidateResolutionForStoreSelector _ => false

theorem selectorArgsToStateKey_comp (args : List JSVal) :
    selectorArgsToStateKey args =
      JKey.comp 0 true (args.enum.map (fun p => (toString p.1, p.2))) := rfl

theorem EKMap.coherent_foldSet' {V : Type} [DecidableEq V] {α : Type}
    (l : List α) (f : α → JKey) (g : α → Option V) (acc : EKMap V)
    (hco : acc.coherent = true) :
    (List.foldl (fun a x => a.set (f x) (g x)) acc l).coherent = true := by
  induction l generalizing acc with
  | nil => exact hco
  | cons x rest ih => exact ih _ (EKMap.coherent_set _ _ _ hco)

theorem EKMap.get_foldSet_none' {V : Type} [DecidableEq V] {α : Type}
    (l : List α) (f : α → JKey) (g : α → Option V) (acc : EKMap V)
    {i : Nat} {ar : Bool} {ps : List (String × JSVal)}
    (hco : acc.coherent = true)
    (hacc : (acc.get (JKey.comp i ar ps)).1 = none)
    (hl : ∀ x ∈ l, JKey.equivB (f x) (JKey.comp i ar ps) = false) :
    ((List.foldl (fun a x => a.set (f x) (g x)) acc l).get
      (JKey.comp i ar ps)).1 = none := by
  induction l generalizing acc with
  | nil => exact hacc
  | cons x rest ih =>
    simp only [List.foldl_cons]
    apply ih _ (EKMap.coherent_set _ _ _ hco)
    · have hne : JKey.equivB (JKey.comp i ar ps) (f x) = false := by
        rw [JKey.equivB_comm]
        exact hl x (List.mem_cons_self _ _)
      rw [EKMap.get_set_ne _ _ _ hco hne]
      exact hacc
    · intro y hy
      exact hl y (List.mem_cons_of_mem _ hy)

theorem RState.coherent_find {s : RState} {n : String} {m : EKMap StateValue}
    (hco : RState.coherent s = true) (h : assocFind s n = some m) :
    m.coherent = true :=
  List.all_eq_true.mp hco _ (assocFind_mem _ _ _ h)

theorem RState.coherent_assocSet (s : RState) (n' : String)
    (m : EKMap StateValue) (hco : RState.coherent s = true)
    (hm : m.coherent = true) : RState.coherent (assocSet s n' m) = true := by
  apply List.all_eq_true.mpr
  intro p hp
  rcases mem_assocSet _ _ _ _ hp with h | h
  · subst h; exact hm
  · exact List.all_eq_true.mp hco _ h

theorem getResolutionState_assocSet_ne (s : RState) (n n' : String)
    (m : EKMap StateValue) (args : List JSVal) (hne : n ≠ n') :
    getResolutionState (assocSet s n' m) n args = getResolutionState s n args := by
  simp [getResolutionState, assocFind_assocSet_ne _ _ _ _ hne]

theorem getResolutionState_assocSet_self (s : RState) (n' : String)
    (m : EKMap StateValue) (args : List JSVal) :
    getResolutionState (assocSet s n' m) n' args =
      (m.get (selectorArgsToStateKey args)).1 := by
  simp [getResolutionState, assocFind_assocSet_self]

/-- The coherence of every per-selector map is preserved by the inner
reducer. -/
theorem subKeysReduce_coherent (m : EKMap StateValue) (a : RAction)
    (hco : m.coherent = true) : (subKeysReduce m a).coherent = true := by
  cases a with
  | startResolution n' args' =>
    exact EKMap.coherent_set _ _ _ (EKMap.coherent_copy m)
  | finishResolution n' args' =>
    exact EKMap.coherent_set _ _ _ (EKMap.coherent_copy m)
  | failResolution n' args' e =>
    exact EKMap.coherent_set _ _ _ (EKMap.coherent_copy m)
  | startResolutions n' argsList =>
    exact EKMap.coherent_foldSet' argsList
      (fun args' => selectorArgsToStateKey args')
      (fun _ => some ⟨Status.resolving, JSVal.undef⟩) _ (EKMap.coherent_copy m)
  | finishResolutions n' argsList =>
    exact EKMap.coherent_foldSet' argsList
      (fun args' => selectorArgsToStateKey args')
      (fun _ => some ⟨Status.finished, JSVal.undef⟩) _ (EKMap.coherent_copy m)
  | failResolutions n' argsList errors =>
    exact EKMap.coherent_foldSet' argsList.enum
      (fun p => selectorArgsToStateKey p.2)
      (fun p => some ⟨Status.error,
        if (errors.getD p.1 JSVal.undef).truthy then errors.getD p.1 JSVal.undef
        else JSVal.undef⟩) _ (EKMap.coherent_copy m)
  | invalidateResolution n' args' =>
    exact EKMap.coherent_delete _ (EKMap.coherent_copy m)
  | invalidateResolutionForStore => exact hco
  | invalidateResolutionForStoreSelector n' => exact hco

/-- Actions that do not target a given (selector, argument-tuple) entry keep
the state coherent and the entry absent/`undefined`. -/
theorem isResolved_untargeted (s : RState) (a : RAction) (n : String)
    (args : List JSVal) (hco : RState.coherent s = true)
    (hnone : getResolutionState s n args = none)
    (hnt : RAction.targets a n args = false) :
    RState.coherent (isResolved s a) = true ∧
      getResolutionState (isResolved s a) n args = none := by
  -- the two invalidation actions handled at the top level
  cases ha : a.selectorName? with
  | none =>
    cases a with
    | invalidateResolutionForStore =>
      exact ⟨rfl, rfl⟩
    | startResolution n' args' => cases ha
    | finishResolution n' args' => cases ha
    | failResolution n' args' e => cases ha
    | startResolutions n' l => cases ha
    | finishResolutions n' l => cases ha
    | failResolutions n' l es => cases ha
    | invalidateResolution n' args' => cases ha
    | invalidateResolutionForStoreSelector n' => cases ha
  | some name =>
    -- per-selector maps: coherence and entry preservation
    have hkeyState : ((assocFind s name).getD EKMap.empty).coherent = true := by
      cases hfind : assocFind s name with
      | none => simp [EKMap.coherent_empty]
      | some m₀ => simpa using RState.coherent_find hco hfind
    have hsub : ∀ (hwr : n = name → ∀ m₀, m₀.coherent = true →
          (m₀.get (selectorArgsToStateKey args)).1 = none →
          ((subKeysReduce m₀ a).get (selectorArgsToStateKey args)).1 = none),
        RState.coherent (subKeysIsResolved s a) = true ∧
          getResolutionState (subKeysIsResolved s a) n args = none := by
      intro hwr
      constructor
      · simp only [subKeysIsResolved, ha]
        exact RState.coherent_assocSet _ _ _ hco
          (subKeysReduce_coherent _ _ hkeyState)
      · simp only [subKeysIsResolved, ha]
        by_cases hn : n = name
        · rw [← hn] at hkeyState ⊢
          rw [getResolutionState_assocSet_self]
          apply hwr hn _ hkeyState
          cases hfind : assocFind s n with
          | none => simp [EKMap.get_empty, hfind]
          | some m₀ =>
            simp only [hfind, Option.getD_some]
            simpa [getResolutionState, hfind] using hnone
        · rw [getResolutionState_assocSet_ne _ _ _ _ _ hn]
          exact hnone
    have hsubtop : (∀ (hwr : n = name → ∀ m₀, m₀.coherent = true →
          (m₀.get (selectorArgsToStateKey args)).1 = none →
          ((subKeysReduce m₀ a).get (selectorArgsToStateKey args)).1 = none),
        RState.coherent (subKeysIsResolved s a) = true ∧
          getResolutionState (subKeysIsResolved s a) n args = none) := hsub
    cases a with
    | invalidateResolutionForStore => cases ha
    | invalidateResolutionForStoreSelector n' =>
      -- drop the whole selector slice
      simp only [isResolved]
      cases hfind : assocFind s n' with
      | none =>
        simp only [hfind, Option.isSome_none, Bool.false_eq_true, if_false]
        exact ⟨hco, hnone⟩
      | some m₀ =>
        simp only [hfind, Option.isSome_some, if_true]
        constructor
        · apply List.all_eq_true.mpr
          intro p hp
          exact List.all_eq_true.mp hco _ (mem_assocDelete _ _ _ hp).1
        · by_cases hn : n = n'
          · subst hn
            simp [getResolutionState, assocFind_assocDelete_self]
          · simp only [getResolutionState, assocFind_assocDelete_ne _ _ _ hn]
            simpa [getResolutionState] using hnone
    | invalidateResolution n' args' =>
      refine hsubtop ?_
      intro hn m₀ hm₀ hm₀none
      simp only [subKeysReduce]
      rw [selectorArgsToStateKey_comp args] at hm₀none
      rw [selectorArgsToStateKey_comp args, selectorArgsToStateKey_comp args']
      rw [EKMap.get_delete _ (EKMap.coherent_copy m₀)]
      by_cases heq : JKey.equivB (selectorArgsToStateKey args')
          (selectorArgsToStateKey args) = true
      · rw [selectorArgsToStateKey_comp args', selectorArgsToStateKey_comp args] at heq
        rw [if_pos heq]
      · rw [selectorArgsToStateKey_comp args', selectorArgsToStateKey_comp args] at heq
        rw [if_neg heq]
        exact EKMap.get_copy_none _ hm₀ hm₀none
    | startResolution n' args' =>
      refine hsubtop ?_
      intro hn m₀ hm₀ hm₀none
      simp only [RAction.selectorName?, Option.some.injEq] at ha
      have hnn' : n' = n := by rw [ha, hn]
      subst hnn'
      simp only [RAction.targets] at hnt
      simp only [decide_eq_true_eq, true_and, Bool.true_and, decide_True] at hnt
      have hne : JKey.equivB (selectorArgsToStateKey args)
          (selectorArgsToStateKey args') = false := by
        rw [JKey.equivB_comm]
        simpa using hnt
      simp only [subKeysReduce]
      rw [selectorArgsToStateKey_comp args] at hm₀none hne ⊢
      rw [EKMap.get_set_ne _ _ _ (EKMap.coherent_copy m₀) hne]
      exact EKMap.get_copy_none _ hm₀ hm₀none
    | finishResolution n' args' =>
      refine hsubtop ?_
      intro hn m₀ hm₀ hm₀none
      simp only [RAction.selectorName?, Option.some.injEq] at ha
      have hnn' : n' = n := by rw [ha, hn]
      subst hnn'
      simp only [RAction.targets] at hnt
      simp only [decide_eq_true_eq, true_and, Bool.true_and, decide_True] at hnt
      have hne : JKey.equivB (selectorArgsToStateKey args)
          (selectorArgsToStateKey args') = false := by
        rw [JKey.equivB_comm]
        simpa using hnt
      simp only [subKeysReduce]
      rw [selectorArgsToStateKey_comp args] at hm₀none hne ⊢
      rw [EKMap.get_set_ne _ _ _ (EKMap.coherent_copy m₀) hne]
      exact EKMap.get_copy_none _ hm₀ hm₀none
    | failResolution n' args' e =>
      refine hsubtop ?_
      intro hn m₀ hm₀ hm₀none
      simp only [RAction.selectorName?, Option.some.injEq] at ha
      have hnn' : n' = n := by rw [ha, hn]
      subst hnn'
      simp only [RAction.targets] at hnt
      simp only [decide_eq_true_eq, true_and, Bool.true_and, decide_True] at hnt
      have hne : JKey.equivB (selectorArgsToStateKey args)
          (selectorArgsToStateKey args') = false := by
        rw [JKey.equivB_comm]
        simpa using hnt
      simp only [subKeysReduce]
      rw [selectorArgsToStateKey_comp args] at hm₀none hne ⊢
      rw [EKMap.get_set_ne _ _ _ (EKMap.coherent_copy m₀) hne]
      exact EKMap.get_copy_none _ hm₀ hm₀none
    | startResolutions n' l =>
      refine hsubtop ?_
      intro hn m₀ hm₀ hm₀none
      simp only [RAction.selectorName?, Option.some.injEq] at ha
      have hnn' : n' = n := by rw [ha, hn]
      subst hnn'
      simp only [RAction.targets] at hnt
      simp only [decide_eq_true_eq, true_and, Bool.true_and, decide_True] at hnt
      have hall := List.any_eq_false.mp (by simpa using hnt)
      simp only [subKeysReduce]
      rw [selectorArgsToStateKey_comp args] at hm₀none ⊢
      apply EKMap.get_foldSet_none' l (fun args' => selectorArgsToStateKey args')
        (fun _ => some ⟨Status.resolving, JSVal.undef⟩) _
        (EKMap.coherent_copy m₀)
        (EKMap.get_copy_none _ hm₀ hm₀none)
      intro x hx
      have := hall x hx
      rw [← selectorArgsToStateKey_comp args]
      simpa using this
    | finishResolutions n' l =>
      refine hsubtop ?_
      intro hn m₀ hm₀ hm₀none
      simp only [RAction.selectorName?, Option.some.injEq] at ha
      have hnn' : n' = n := by rw [ha, hn]
      subst hnn'
      simp only [RAction.targets] at hnt
      simp only [decide_eq_true_eq, true_and, Bool.true_and, decide_True] at hnt
      have hall := List.any_eq_false.mp (by simpa using hnt)
      simp only [subKeysReduce]
      rw [selectorArgsToStateKey_comp args] at hm₀none ⊢
      apply EKMap.get_foldSet_none' l (fun args' => selectorArgsToStateKey args')
        (fun _ => some ⟨Status.finished, JSVal.undef⟩) _
        (EKMap.coherent_copy m₀)
        (EKMap.get_copy_none _ hm₀ hm₀none)
      intro x hx
      have := hall x hx
      rw [← selectorArgsToStateKey_comp args]
      simpa using this
    | failResolutions n' l es =>
      refine hsubtop ?_
      intro hn m₀ hm₀ hm₀none
      simp only [RAction.selectorName?, Option.some.injEq] at ha
      have hnn' : n' = n := by rw [ha, hn]
      subst hnn'
      simp only [RAction.targets] at hnt
      simp only [decide_eq_true_eq, true_and, Bool.true_and, decide_True] at hnt
      have hall := List.any_eq_false.mp (by simpa using hnt)
      simp only [subKeysReduce]
      rw [selectorArgsToStateKey_comp args] at hm₀none ⊢
      apply EKMap.get_foldSet_none' l.enum (fun p => selectorArgsToStateKey p.2)
        (fun p => some ⟨Status.error,
          if (es.getD p.1 JSVal.undef).truthy then es.getD p.1 JSVal.undef
          else JSVal.undef⟩) _
        (EKMap.coherent_copy m₀)
        (EKMap.get_copy_none _ hm₀ hm₀none)
      intro x hx
      have hx2 : x.2 ∈ l := by
        rw [← List.enum_map_snd l]
        exact List.mem_map.mpr ⟨x, hx, rfl⟩
      have := hall x.2 hx2
      rw [← selectorArgsToStateKey_comp args]
      simpa using this

/-- A trace of dispatched actions, none of which targets a given
(selector, argument-tuple) entry, keeps the state coherent and the entry
absent. -/
theorem applyActions_untargeted (acts : List RAction) (s : RState)
    (n : String) (args : List JSVal) (hco : RState.coherent s = true)
    (hnone : getResolutionState s n args = none)
    (hall : ∀ a ∈ acts, RAction.targets a n args = false) :
    RState.coherent (applyActions s acts) = true ∧
      getResolutionState (applyActions s acts) n args = none := by
  induction acts generalizing s with
  | nil => exact ⟨hco, hnone⟩
  | cons a rest ih =>
    have h1 := isResolved_untargeted s a n args hco hnone
      (hall a (List.mem_cons_self a rest))
    exact ih (isResolved s a) h1.1 h1.2
      (fun a' ha' => hall a' (List.mem_cons_of_mem a ha'))

/-- `START_RESOLUTION` writes a `'resolving'` entry for its own
(selector, args), whatever the prior state. -/
theorem getResolutionState_after_start (s : RState) (n : String)
    (args : List JSVal) :
    getResolutionState (isResolved s (RAction.startResolution n args)) n args =
      some ⟨Status.resolving, JSVal.undef⟩ := by
  simp only [isResolved, subKeysIsResolved, RAction.selectorName?]
  rw [getResolutionState_assocSet_self]
  simp only [subKeysReduce]
  exact EKMap.get_set_self _ _ _

/-- `FINISH_RESOLUTION` writes a `'finished'` entry for its own
(selector, args), whatever the prior state. -/
theorem getResolutionState_after_finish (s : RState) (n : String)
    (args : List JSVal) :
    getResolutionState (isResolved s (RAction.finishResolution n args)) n args =
      some ⟨Status.finished, JSVal.undef⟩ := by
  simp only [isResolved, subKeysIsResolved, RAction.selectorName?]
  rw [getResolutionState_assocSet_self]
  simp only [subKeysReduce]
  exact EKMap.get_set_self _ _ _

/-- `FAIL_RESOLUTION` writes an `'error'` entry for its own
(selector, args), whatever the prior state. -/
theorem getResolutionState_after_fail (s : RState) (n : String)
    (args : List JSVal) (err : JSVal) :
    getResolutionState (isResolved s (RAction.failResolution n args err)) n args =
      some ⟨Status.error, err⟩ := by
  simp only [isResolved, subKeysIsResolved, RAction.selectorName?]
  rw [getResolutionState_assocSet_self]
  simp only [subKeysReduce]
  exact EKMap.get_set_self _ _ _

/-- Claim C2: for every selector name `n` and argument tuple `args`,
`isResolving n args` is `false` on any state reached from the initial state
by dispatching only actions that do not target `(n, args)`; it becomes
`true` after dispatching `startResolution n args`, and `false` again after
a subsequent `finishResolution n args` or `failResolution n args err` for
the same `(n, args)`. -/
theorem c2_isResolving_lifecycle (n : String) (args : List JSVal)
    (prior : List RAction) (err : JSVal)
    (hprior : ∀ a ∈ prior, RAction.targets a n args = false) :
    isResolving (applyActions initialRState prior) n args = false ∧
    isResolving (applyActions initialRState
      (prior ++ [RAction.startResolution n args])) n args = true ∧
    isResolving (applyActions initialRState
      (prior ++ [RAction.startResolution n args,
        RAction.finishResolution n args])) n args = false ∧
    isResolving (applyActions initialRState
      (prior ++ [RAction.startResolution n args,
        RAction.failResolution n args err])) n args = false := by
  have hinit : RState.coherent initialRState = true ∧
      getResolutionState initialRState n args = none := ⟨rfl, rfl⟩
  have hprior' := applyActions_untargeted prior initialRState n args
    hinit.1 hinit.2 hprior
  refine ⟨?_, ?_, ?_, ?_⟩
  · simp [isResolving, hprior'.2]
  · have : applyActions initialRState (prior ++ [RAction.startResolution n args]) =
        isResolved (applyActions initialRState prior)
          (RAction.startResolution n args) := by
      simp [applyActions, List.foldl_append]
    rw [this]
    simp [isResolving, getResolutionState_after_start]
  · have : applyActions initialRState
        (prior ++ [RAction.startResolution n args,
          RAction.finishResolution n args]) =
        isResolved (isResolved (applyActions initialRState prior)
          (RAction.startResolution n args)) (RAction.finishResolution n args) := by
      simp [applyActions, List.foldl_append]
    rw [this]
    simp [isResolving, getResolutionState_after_finish]
  · have : applyActions initialRState
        (prior ++ [RAction.startResolution n args,
          RAction.failResolution n args err]) =
        isResolved (isResolved (applyActions initialRState prior)
          (RAction.startResolution n args)) (RAction.failResolution n args err) := by
      simp [applyActions, List.foldl_append]
    rw [this]
    simp [isResolving, getResolutionState_after_fail]

/-- Concrete instance of the `isResolving` lifecycle: selector `"f"` with
arguments `[42]`, after an unrelated prior dispatch for selector `"g"`. -/
theorem c2_isResolving_lifecycle_witness :
    isResolving (applyActions initialRState
      [RAction.startResolution "g" []]) "f" [JSVal.num 42] = false ∧
    isResolving (applyActions initialRState
      ([RAction.startResolution "g" []] ++
        [RAction.startResolution "f" [JSVal.num 42]])) "f" [JSVal.num 42] = true ∧
    isResolving (applyActions initialRState
      ([RAction.startResolution "g" []] ++
        [RAction.startResolution "f" [JSVal.num 42],
          RAction.finishResolution "f" [JSVal.num 42]])) "f" [JSVal.num 42] = false ∧
    isResolving (applyActions initialRState
      ([RAction.startResolution "g" []] ++
        [RAction.startResolution "f" [JSVal.num 42],
          RAction.failResolution "f" [JSVal.num 42] JSVal.null])) "f"
      [JSVal.num 42] = false :=
  c2_isResolving_lifecycle "f" [JSVal.num 42]
    [RAction.startResolution "g" []] JSVal.null (by decide)

/-- Claim C6: after dispatching `failResolution n args e` — for any error
value `e`, including falsy ones such as `null` or `undefined` —
`hasResolutionFailed n args` returns `true` and the stored error is `e`
itself; and on every state whatsoever, `hasResolutionFailed` is determined
solely by the stored status being `'error'`, never by the truthiness of the
stored error value. -/
theorem c6_hasResolutionFailed_falsy (s : RState) (n : String)
    (args : List JSVal) (e : JSVal) :
    hasResolutionFailed (isResolved s (RAction.failResolution n args e)) n args
      = true ∧
    getResolutionError (isResolved s (RAction.failResolution n args e)) n args
      = e ∧
    ∀ (s' : RState) (n' : String) (args' : List JSVal),
      (hasResolutionFailed s' n' args' = true ↔
        (getResolutionState s' n' args').map StateValue.status
          = some Status.error) := by
  refine ⟨?_, ?_, ?_⟩
  · simp [hasResolutionFailed, getResolutionState_after_fail]
  · simp [getResolutionError, getResolutionState_after_fail]
  · intro s' n' args'
    simp only [hasResolutionFailed]
    cases h : getResolutionState s' n' args' with
    | none => simp
    | some sv => simp

/-- Claim C1: for two composite keys of the same kind (`ar`) with identical
own property names and values listed in any order — but distinct object
references (`i1 ≠ i2`) — `set` through one key makes `get` through the
other return exactly the stored value, and `has` return `true`.  The side
conditions: the map is coherent (every reachable map satisfies this), the
property names are duplicate-free (own property names of a JS object always
are), and no property is named `"_ekm_value"` (the tree's internal sentinel
name, for which the structure is unsound anyway). -/
theorem c1_set_get_equivalent_keys {V : Type} [DecidableEq V] (m : EKMap V)
    (i1 i2 : Nat) (ar : Bool) (ps1 ps2 : List (String × JSVal)) (v : V)
    (hco : m.coherent = true)
    (hperm : List.Perm ps1 ps2)
    (hnd : (ps1.map Prod.fst).Nodup)
    (_hne : i1 ≠ i2)
    (_hsent : "_ekm_value" ∉ ps1.map Prod.fst) :
    ((m.set (JKey.comp i1 ar ps1) (some v)).get (JKey.comp i2 ar ps2)).1
      = some v ∧
    ((m.set (JKey.comp i1 ar ps1) (some v)).has (JKey.comp i2 ar ps2)).1
      = true := by
  have heq : JKey.equivB (JKey.comp i1 ar ps1) (JKey.comp i2 ar ps2) = true := by
    simp [JKey.equivB, sortProps_eq_of_perm ps1 ps2 hperm hnd]
  exact ⟨EKMap.get_set_equiv m (some v) hco heq,
    EKMap.has_set_equiv m (some v) hco heq⟩

/-- Concrete instance of equivalent-key lookup: two array keys listing
properties `a` and `b` in opposite orders, distinct references, on the empty
map. -/
theorem c1_set_get_equivalent_keys_witness :
    (((EKMap.empty : EKMap Nat).set
        (JKey.comp 1 true [("b", JSVal.num 2), ("a", JSVal.num 1)]) (some 7)).get
      (JKey.comp 2 true [("a", JSVal.num 1), ("b", JSVal.num 2)])).1 = some 7 ∧
    (((EKMap.empty : EKMap Nat).set
        (JKey.comp 1 true [("b", JSVal.num 2), ("a", JSVal.num 1)]) (some 7)).has
      (JKey.comp 2 true [("a", JSVal.num 1), ("b", JSVal.num 2)])).1 = true :=
  c1_set_get_equivalent_keys EKMap.empty 1 2 true
    [("b", JSVal.num 2), ("a", JSVal.num 1)]
    [("a", JSVal.num 1), ("b", JSVal.num 2)] 7
    (by decide) (by decide) (by decide) (by decide) (by decide)

/-- Claim C3: the claim fails against the code.  `delete` on a present key
does return `true`, but it is implemented as `set(key, undefined)`, and
`has` tests entry presence — "even `undefined` can be a valid member value"
— so an immediately following `has` with the same key still returns `true`,
for primitive and composite keys alike. -/
theorem c3_delete_then_has_still_true :
    (((EKMap.empty : EKMap Nat).set (JKey.prim (JSVal.str "a"))
        (some 1)).delete (JKey.prim (JSVal.str "a"))).1 = true ∧
    (((((EKMap.empty : EKMap Nat).set (JKey.prim (JSVal.str "a"))
        (some 1)).delete (JKey.prim (JSVal.str "a"))).2.has
      (JKey.prim (JSVal.str "a"))).1 = true) ∧
    (((EKMap.empty : EKMap Nat).set (JKey.comp 0 false [("x", JSVal.num 1)])
        (some 2)).delete (JKey.comp 0 false [("x", JSVal.num 1)])).1 = true ∧
    (((((EKMap.empty : EKMap Nat).set (JKey.comp 0 false [("x", JSVal.num 1)])
        (some 2)).delete (JKey.comp 0 false [("x", JSVal.num 1)])).2.has
      (JKey.comp 0 false [("x", JSVal.num 1)])).1 = true) := by
  decide

/-- Claim C7: the no-crash half of the claim fails against the code.  After
`startResolution "f" []` followed by `invalidateResolution "f" []`, the
per-selector map holds an orphaned entry whose stored value is `undefined`
(the backing map still has one entry), and `hasResolvingSelectors` — whose
callback reads `resolution.status` without a guard — throws a `TypeError`
(modelled as `none`) instead of returning a Boolean. -/
theorem c7_hasResolvingSelectors_crashes :
    hasResolvingSelectors (applyActions initialRState
      [RAction.startResolution "f" [],
        RAction.invalidateResolution "f" []]) = none ∧
    (assocFind (applyActions initialRState
      [RAction.startResolution "f" [],
        RAction.invalidateResolution "f" []]) "f").map EKMap.size = some 1 := by
  decide

/-! ## createSelector (`rememo`)

The memoizer keeps a `WeakMap` tree (`rootCache`) keyed by the object-like
dependants; the running cache for a dependants array sits at the tree node
reached by following the dependants up to the first non-object one, under
the reserved `LEAF_KEY` slot.  Values that can appear as dependants,
arguments and results are either object references (`obj`, compared by
identity) or primitives. -/

/-- A value as seen by the memoizer: an object reference (identified by an
allocation id — `===` compares ids) or a primitive. -/
inductive DepVal : Type where
  | obj (id : Nat)
  | prim (v : JSVal)
deriving DecidableEq, Repr

/-- `isObject` (`utils/is-object.ts`): `!!value && 'object' === typeof
value`.  Every modelled primitive fails it (`null` is falsy; the `typeof`
of the others is never `'object'`). -/
def isObject : DepVal → Bool
  | .obj _ => true
  | .prim _ => false

/-- `isShallowEqual(a, b, fromIndex)` (`utils/is-shallow-equal.ts`): false
when the lengths differ, else `a[i] === b[i]` for every `i ≥ fromIndex` —
equivalently, equality of the suffixes from `fromIndex`. -/
def isShallowEqual (a b : List DepVal) (fromIndex : Nat) : Bool :=
  decide (a.length = b.length) && decide (a.drop fromIndex = b.drop fromIndex)

/-- One entry of a cache's recently-used list: the (source-nulled) call
arguments and the memoized result. -/
structure MemoNode (R : Type) : Type where
  args : List DepVal
  val : R
deriving DecidableEq

/-- A running cache (`createCache()` plus the fields the calls assign):
the uniqueness flag set at creation, the node list from `head` in order,
and `lastDependants` (`none` models the initial `undefined`). -/
structure Cache (R : Type) : Type where
  isUniqueByDependants : Bool
  head : List (MemoNode R)
  lastDependants : Option (List DepVal)

/-- The `WeakMap` tree: children keyed by object-dependant identity, and
the reserved `LEAF_KEY` slot holding the node's running cache. -/
inductive CTree (R : Type) : Type where
  | mk (leaf : Option (Cache R)) (children : List (Nat × CTree R))

namespace CTree

def leaf {R : Type} : CTree R → Option (Cache R)
  | .mk l _ => l

def children {R : Type} : CTree R → List (Nat × CTree R)
  | .mk _ cs => cs

/-- `new WeakMap()` — the fresh `rootCache`. -/
def empty {R : Type} : CTree R := .mk none []

end CTree

@[simp] theorem CTree.mk_leaf {R : Type} (l : Option (Cache R))
    (cs : List (Nat × CTree R)) : (CTree.mk l cs).leaf = l := rfl

@[simp] theorem CTree.children_mk {R : Type} (l : Option (Cache R))
    (cs : List (Nat × CTree R)) : (CTree.mk l cs).children = cs := rfl

/-- The object-identity path `getCache` walks: the dependants' ids up to
(excluding) the first non-object dependant. -/
def objPrefix : List DepVal → List Nat
  | [] => []
  | .obj i :: rest => i :: objPrefix rest
  | .prim _ :: _ => []

/-- Whether the `getCache` loop runs to completion without breaking — the
value of its `isUniqueByDependants` flag. -/
def allObjects : List DepVal → Bool
  | [] => true
  | .obj _ :: rest => allObjects rest
  | .prim _ :: _ => false

/-- The walk of `getCache` over the tree: traverse (creating missing
`WeakMap`s) along the object path, then return the `LEAF_KEY` cache,
creating it — with the flag computed by the loop — when absent.  Returns
the cache and the updated tree. -/
def getCacheWalk {R : Type} (t : CTree R) (path : List Nat) (isUnique : Bool) :
    Cache R × CTree R :=
  match path with
  | [] =>
    match t.leaf with
    | some c => (c, t)
    | none => (⟨isUnique, [], none⟩, .mk (some ⟨isUnique, [], none⟩) t.children)
  | i :: rest =>
    match assocFind t.children i with
    | some sub =>
      let r := getCacheWalk sub rest isUnique
      (r.1, .mk t.leaf (assocSet t.children i r.2))
    | none =>
      let r := getCacheWalk (CTree.mk none []) rest isUnique
      (r.1, .mk t.leaf (assocSet t.children i r.2))

/-- `getCache(dependants)`. -/
def getCache {R : Type} (t : CTree R) (deps : List DepVal) : Cache R × CTree R :=
  getCacheWalk t (objPrefix deps) (allObjects deps)

/-- Store the (mutated) cache object back at its tree position — the
source's mutations through the shared reference, made explicit. -/
def putCache {R : Type} (t : CTree R) (path : List Nat) (c : Cache R) : CTree R :=
  match path with
  | [] => .mk (some c) t.children
  | i :: rest =>
    match assocFind t.children i with
    | some sub => .mk t.leaf (assocSet t.children i (putCache sub rest c))
    | none => .mk t.leaf (assocSet t.children i (putCache (CTree.mk none []) rest c))

/-- The `while (node)` search: the first node whose arguments shallow-match
the call's from index 1, returned together with the remaining list in order
(the source relinks the matched node to the head; an already-head match
leaves the list unchanged, which the rebuilt `matched :: rest` reproduces). -/
def findNode {R : Type} (args : List DepVal) :
    List (MemoNode R) → Option (MemoNode R × List (MemoNode R))
  | [] => none
  | n :: rest =>
    if isShallowEqual n.args args 1 then some (n, rest)
    else
      match findNode args rest with
      | some p => some (p.1, n :: p.2)
      | none => none

/-- `args[0] = null` on the copied arguments array (on an empty call this
appends the `null`). -/
def nullFirst : List DepVal → List DepVal
  | [] => [DepVal.prim JSVal.null]
  | _ :: rest => DepVal.prim JSVal.null :: rest

/-- The observable outcome of one `callSelector` invocation: the returned
value, the cache state after, and whether the underlying selector ran. -/
structure CallResult (R : Type) : Type where
  val : R
  tree : CTree R
  invoked : Bool

/-- `callSelector(...args)`: get (or create) the cache for the dependants;
when uniqueness is not guaranteed, clear it if the stored `lastDependants`
shallow-differ from the current ones (`fromIndex` 0) and record the current
ones; then serve from the first argument-matching node, or invoke the
selector and push a new head node with the source argument nulled. -/
def callSelector {R : Type} (f : List DepVal → R)
    (gd : List DepVal → List DepVal) (t : CTree R) (args : List DepVal) :
    CallResult R :=
  let dependants := gd args
  let path := objPrefix dependants
  let r := getCache t dependants
  let cache₀ := r.1
  let cache :=
    if !cache₀.isUniqueByDependants then
      let cache₁ :=
        match cache₀.lastDependants with
        | some last =>
          if !isShallowEqual dependants last 0 then { cache₀ with head := [] }
          else cache₀
        | none => cache₀
      { cache₁ with lastDependants := some dependants }
    else cache₀
  match findNode args cache.head with
  | some p =>
    ⟨p.1.val, putCache r.2 path { cache with head := p.1 :: p.2 }, false⟩
  | none =>
    let v := f args
    ⟨v, putCache r.2 path
      { cache with head := ⟨nullFirst args, v⟩ :: cache.head }, true⟩

/-- The default `getDependants` (`arrayOf`): the source argument as the sole
dependant. -/
def arrayOfDeps (args : List DepVal) : List DepVal :=
  [args.headD (DepVal.prim JSVal.undef)]

/-- The first call's result and the state after it, then the second call —
the two-successive-calls scenario of the memoization properties. -/
def secondCall {R : Type} (f : List DepVal → R)
    (gd : List DepVal → List DepVal) (args1 args2 : List DepVal) :
    CallResult R :=
  callSelector f gd (callSelector f gd CTree.empty args1).tree args2

/-! ### Memoizer lemmas -/

/-- With `fromIndex` 0 the shallow comparison is plain equality of the two
arrays' entries. -/
theorem isShallowEqual_zero (a b : List DepVal) :
    isShallowEqual a b 0 = decide (a = b) := by
  by_cases h : a = b
  · subst h; simp [isShallowEqual]
  · by_cases hl : a.length = b.length
    · simp [isShallowEqual, hl, h]
    · simp [isShallowEqual, hl, h]

theorem nullFirst_cons (x : DepVal) (r : List DepVal) :
    nullFirst (x :: r) = DepVal.prim JSVal.null :: r := rfl

/-- The from-index-1 match succeeds between the stored (source-nulled)
arguments of one call and the next call's arguments whenever lengths agree
and the tails agree. -/
theorem isShallowEqual_nullFirst (args1 args2 : List DepVal)
    (hlen0 : 0 < args1.length) (hlen : args1.length = args2.length)
    (htail : args1.drop 1 = args2.drop 1) :
    isShallowEqual (nullFirst args1) args2 1 = true := by
  cases args1 with
  | nil => simp at hlen0
  | cons x r =>
    rw [nullFirst_cons]
    simp only [isShallowEqual, Bool.and_eq_true, decide_eq_true_eq]
    constructor
    · simpa using hlen
    · simpa using htail

theorem objPrefix_length_le (d : List DepVal) : (objPrefix d).length ≤ d.length := by
  induction d with
  | nil => simp [objPrefix]
  | cons x rest ih =>
    cases x with
    | obj i => simpa [objPrefix] using ih
    | prim v => simp [objPrefix]

theorem allObjects_of_objPrefix_length (d : List DepVal)
    (h : (objPrefix d).length = d.length) : allObjects d = true := by
  induction d with
  | nil => rfl
  | cons x rest ih =>
    cases x with
    | obj i =>
      simp only [objPrefix, List.length_cons, Nat.succ.injEq] at h
      simpa [allObjects] using ih h
    | prim v =>
      simp only [objPrefix, List.length, List.length_cons] at h
      have := objPrefix_length_le rest
      omega

theorem objPrefix_map_of_allObjects (d : List DepVal)
    (h : allObjects d = true) : (objPrefix d).map DepVal.obj = d := by
  induction d with
  | nil => rfl
  | cons x rest ih =>
    cases x with
    | obj i => simp only [objPrefix, List.map_cons, ih (by simpa [allObjects] using h)]
    | prim v => simp [allObjects] at h

theorem objPrefix_length_of_allObjects (d : List DepVal)
    (h : allObjects d = true) : (objPrefix d).length = d.length := by
  conv_rhs => rw [← objPrefix_map_of_allObjects d h]
  simp

/-- The chain of fresh `WeakMap`s `getCache` creates along a path, with a
cache at its end. -/
def freshChain {R : Type} (p : List Nat) (c : Cache R) : CTree R :=
  match p with
  | [] => .mk (some c) []
  | i :: rest => .mk none [(i, freshChain rest c)]

theorem getCacheWalk_empty {R : Type} (p : List Nat) (u : Bool) :
    getCacheWalk (CTree.empty : CTree R) p u =
      (⟨u, [], none⟩, freshChain p ⟨u, [], none⟩) := by
  induction p with
  | nil => rfl
  | cons i rest ih =>
    show getCacheWalk (CTree.mk none []) (i :: rest) u = _
    simp only [getCacheWalk, assocFind_nil]
    rw [show (CTree.mk none [] : CTree R) = CTree.empty from rfl, ih]
    rfl

theorem getCacheWalk_freshChain_self {R : Type} (p : List Nat) (c : Cache R)
    (u : Bool) :
    getCacheWalk (freshChain p c) p u = (c, freshChain p c) := by
  induction p with
  | nil => rfl
  | cons i rest ih =>
    show getCacheWalk (CTree.mk none [(i, freshChain rest c)]) (i :: rest) u = _
    simp only [getCacheWalk, CTree.children_mk, CTree.mk_leaf, assocFind_cons,
      if_pos rfl, ih]
    simp [assocSet, freshChain, ih]

theorem getCacheWalk_freshChain_ne {R : Type} (p q : List Nat) (c : Cache R)
    (u : Bool) (hne : q ≠ p) :
    (getCacheWalk (freshChain p c) q u).1 = ⟨u, [], none⟩ := by
  induction q generalizing p with
  | nil =>
    cases p with
    | nil => exact absurd rfl hne
    | cons i rest => rfl
  | cons j rest' ih =>
    cases p with
    | nil =>
      show (getCacheWalk (CTree.mk (some c) []) (j :: rest') u).1 = _
      simp only [getCacheWalk, CTree.children_mk, CTree.mk_leaf, assocFind_nil]
      rw [show (CTree.mk none [] : CTree R) = CTree.empty from rfl,
        getCacheWalk_empty]
    | cons i rest =>
      show (getCacheWalk (CTree.mk none [(i, freshChain rest c)]) (j :: rest') u).1 = _
      by_cases hij : i = j
      · subst hij
        have hqr : rest' ≠ rest := fun h => hne (by rw [h])
        simp only [getCacheWalk, CTree.children_mk, CTree.mk_leaf, assocFind_cons,
          if_pos rfl]
        exact ih rest hqr
      · simp only [getCacheWalk, CTree.children_mk, CTree.mk_leaf, assocFind_cons,
          if_neg hij, assocFind_nil]
        rw [show (CTree.mk none [] : CTree R) = CTree.empty from rfl,
          getCacheWalk_empty]

theorem putCache_freshChain_self {R : Type} (p : List Nat) (c c' : Cache R) :
    putCache (freshChain p c) p c' = freshChain p c' := by
  induction p with
  | nil => rfl
  | cons i rest ih =>
    show putCache (CTree.mk none [(i, freshChain rest c)]) (i :: rest) c' = _
    simp only [putCache, CTree.children_mk, CTree.mk_leaf, assocFind_cons,
      if_pos rfl, ih]
    simp [assocSet, freshChain, ih]

/-- The first call on a fresh memoizer: the selector runs, and the tree
afterwards holds exactly one cache, at the dependants' object prefix, with
one node and — when uniqueness is not guaranteed — the dependants
recorded. -/
theorem callSelector_fresh {R : Type} (f : List DepVal → R)
    (gd : List DepVal → List DepVal) (args : List DepVal) :
    callSelector f gd (CTree.empty : CTree R) args =
      ⟨f args,
        freshChain (objPrefix (gd args))
          ⟨allObjects (gd args), [⟨nullFirst args, f args⟩],
            if allObjects (gd args) then none else some (gd args)⟩,
        true⟩ := by
  cases hu : allObjects (gd args) with
  | true =>
    simp only [callSelector, getCache, getCacheWalk_empty, hu, Bool.not_true,
      Bool.false_eq_true, if_false, findNode, putCache_freshChain_self]
    simp [hu]
  | false =>
    simp only [callSelector, getCache, getCacheWalk_empty, hu, Bool.not_false,
      if_true, findNode, putCache_freshChain_self]
    simp [hu]

/-- Two successive calls with the same dependants and the same argument tail:
the second is served from the first's cache node without invoking the
selector. -/
theorem secondCall_hit {R : Type} (f : List DepVal → R)
    (gd : List DepVal → List DepVal) (args1 args2 : List DepVal)
    (hdeps : gd args2 = gd args1)
    (hlen0 : 0 < args1.length) (hlen : args1.length = args2.length)
    (htail : args1.drop 1 = args2.drop 1) :
    (secondCall f gd args1 args2).val = f args1 ∧
      (secondCall f gd args1 args2).invoked = false := by
  have hmatch := isShallowEqual_nullFirst args1 args2 hlen0 hlen htail
  rw [secondCall, callSelector_fresh]
  cases hu : allObjects (gd args1) with
  | true =>
    simp only [callSelector, getCache, hdeps, hu, if_true,
      getCacheWalk_freshChain_self, Bool.not_true, Bool.false_eq_true, if_false,
      findNode, hmatch]
    simp
  | false =>
    simp only [callSelector, getCache, hdeps, hu, Bool.false_eq_true, if_false,
      getCacheWalk_freshChain_self, Bool.not_false, if_true,
      isShallowEqual_zero, decide_True, Bool.not_true, findNode, hmatch]
    simp

/-- Two successive calls whose dependants arrays have the same length but
differ: the second call re-invokes the selector (either the guard cleared
the shared cache, or a different cache slot — necessarily empty — is
used). -/
theorem secondCall_recompute {R : Type} (f : List DepVal → R)
    (gd : List DepVal → List DepVal) (args1 args2 : List DepVal)
    (hlen : (gd args1).length = (gd args2).length)
    (hne : gd args1 ≠ gd args2) :
    (secondCall f gd args1 args2).val = f args2 ∧
      (secondCall f gd args1 args2).invoked = true := by
  rw [secondCall, callSelector_fresh]
  by_cases hpath : objPrefix (gd args2) = objPrefix (gd args1)
  · -- the calls share the cache slot; equal lengths force both dependants
    -- arrays out of the all-objects regime, so the guard applies and clears
    have hu1 : allObjects (gd args1) = false := by
      cases h1 : allObjects (gd args1) with
      | false => rfl
      | true =>
        have hplen1 := objPrefix_length_of_allObjects _ h1
        have h2 := allObjects_of_objPrefix_length (gd args2)
          (by rw [hpath, hplen1, hlen])
        have e1 := objPrefix_map_of_allObjects _ h1
        have e2 := objPrefix_map_of_allObjects _ h2
        exact absurd (by rw [← e1, ← e2, hpath]) hne
    have hshal : isShallowEqual (gd args2) (gd args1) 0 = false := by
      rw [isShallowEqual_zero]
      simpa using fun h => hne h.symm
    simp only [callSelector, getCache, hpath, hu1, Bool.false_eq_true, if_false,
      getCacheWalk_freshChain_self, Bool.not_false, if_true, hshal, findNode]
    simp
  · -- different cache slot: its leaf is absent, the cache starts empty
    have hfresh := getCacheWalk_freshChain_ne
      (objPrefix (gd args1)) (objPrefix (gd args2))
      (⟨allObjects (gd args1), [⟨nullFirst args1, f args1⟩],
        if allObjects (gd args1) then none else some (gd args1)⟩ : Cache R)
      (allObjects (gd args2)) hpath
    simp only [callSelector, getCache]
    rw [show getCacheWalk
        (freshChain (objPrefix (gd args1))
          ⟨allObjects (gd args1), [⟨nullFirst args1, f args1⟩],
            if allObjects (gd args1) then none else some (gd args1)⟩)
        (objPrefix (gd args2)) (allObjects (gd args2)) =
        ((getCacheWalk
          (freshChain (objPrefix (gd args1))
            ⟨allObjects (gd args1), [⟨nullFirst args1, f args1⟩],
              if allObjects (gd args1) then none else some (gd args1)⟩)
          (objPrefix (gd args2)) (allObjects (gd args2))).1,
         (getCacheWalk
          (freshChain (objPrefix (gd args1))
            ⟨allObjects (gd args1), [⟨nullFirst args1, f args1⟩],
              if allObjects (gd args1) then none else some (gd args1)⟩)
          (objPrefix (gd args2)) (allObjects (gd args2))).2) from rfl, hfresh]
    cases hu2 : allObjects (gd args2) with
    | true => simp [findNode]
    | false => simp [findNode]

/-- Two successive calls sharing a non-unique cache slot whose dependants
arrays differ (under the full shallow comparison): the guard clears the
cache before it is used, so the selector re-runs. -/
theorem secondCall_cleared {R : Type} (f : List DepVal → R)
    (gd : List DepVal → List DepVal) (args1 args2 : List DepVal)
    (hprim : allObjects (gd args1) = false)
    (hpath : objPrefix (gd args2) = objPrefix (gd args1))
    (hne : gd args2 ≠ gd args1) :
    (secondCall f gd args1 args2).val = f args2 ∧
      (secondCall f gd args1 args2).invoked = true := by
  rw [secondCall, callSelector_fresh]
  have hshal : isShallowEqual (gd args2) (gd args1) 0 = false := by
    rw [isShallowEqual_zero]
    simpa using hne
  simp only [callSelector, getCache, hpath, hprim, Bool.false_eq_true, if_false,
    getCacheWalk_freshChain_self, Bool.not_false, if_true, hshal, findNode]
  simp

/-- The dependants getter exhibiting the stale-uniqueness corner: an
all-object dependants array on the first call, the same object followed by a
primitive on every other call. -/
def staleFlagGd (args : List DepVal) : List DepVal :=
  if args = [DepVal.prim (JSVal.num 1)] then [DepVal.obj 7]
  else [DepVal.obj 7, DepVal.prim (JSVal.num 5)]

/-- Claim C4 (amended): for the first two calls of a freshly created
memoized selector — (a) when the two calls produce element-wise identical
dependants arrays and pass arguments identical at every position after the
first, the second call returns the first call's result without re-invoking
the selector, even when the source argument differs; (b) when the two
dependants arrays have the same length and differ at some position, the
selector is re-invoked on the second call's arguments. -/
theorem c4_memoized_caching (R : Type) (f : List DepVal → R)
    (gd : List DepVal → List DepVal) (args1 args2 : List DepVal) :
    (gd args2 = gd args1 → 0 < args1.length → args1.length = args2.length →
      args1.drop 1 = args2.drop 1 →
      (secondCall f gd args1 args2).val =
          (callSelector f gd CTree.empty args1).val ∧
        (secondCall f gd args1 args2).invoked = false) ∧
    ((gd args1).length = (gd args2).length → gd args1 ≠ gd args2 →
      (secondCall f gd args1 args2).val = f args2 ∧
        (secondCall f gd args1 args2).invoked = true) := by
  constructor
  · intro hdeps hlen0 hlen htail
    have h := secondCall_hit f gd args1 args2 hdeps hlen0 hlen htail
    rw [callSelector_fresh]
    exact h
  · intro hlen hne
    exact secondCall_recompute f gd args1 args2 hlen hne

/-- The second call is served the first call's stale result although the
dependants changed (`[obj 7]` vs `[obj 7, 5]`): the cache created under the
all-object dependants keeps `isUniqueByDependants` true, so the later call
with a primitive dependant skips the shallow-comparison guard entirely. -/
theorem c4_memoized_caching_counterexample :
    staleFlagGd [DepVal.prim (JSVal.num 1)] ≠
        staleFlagGd [DepVal.prim (JSVal.num 2)] ∧
    (secondCall (fun args => args) staleFlagGd
      [DepVal.prim (JSVal.num 1)] [DepVal.prim (JSVal.num 2)]).invoked = false ∧
    (secondCall (fun args => args) staleFlagGd
      [DepVal.prim (JSVal.num 1)] [DepVal.prim (JSVal.num 2)]).val
      = [DepVal.prim (JSVal.num 1)] := by
  decide

/-- Concrete runs of both halves of the memoization property: a constant
object dependant with a changed source argument is served from cache; a
changed same-length dependants array forces recomputation. -/
theorem c4_memoized_caching_witness :
    ((secondCall (fun args => args) (fun _ => [DepVal.obj 3])
        [DepVal.prim (JSVal.num 1), DepVal.prim (JSVal.num 9)]
        [DepVal.prim (JSVal.num 2), DepVal.prim (JSVal.num 9)]).val =
      (callSelector (fun args => args) (fun _ => [DepVal.obj 3]) CTree.empty
        [DepVal.prim (JSVal.num 1), DepVal.prim (JSVal.num 9)]).val ∧
      (secondCall (fun args => args) (fun _ => [DepVal.obj 3])
        [DepVal.prim (JSVal.num 1), DepVal.prim (JSVal.num 9)]
        [DepVal.prim (JSVal.num 2), DepVal.prim (JSVal.num 9)]).invoked = false) ∧
    ((secondCall (fun args => args) (fun args => args)
        [DepVal.prim (JSVal.num 1)] [DepVal.prim (JSVal.num 2)]).val
        = [DepVal.prim (JSVal.num 2)] ∧
      (secondCall (fun args => args) (fun args => args)
        [DepVal.prim (JSVal.num 1)] [DepVal.prim (JSVal.num 2)]).invoked = true) :=
  ⟨(c4_memoized_caching (List DepVal) (fun args => args) (fun _ => [DepVal.obj 3])
      [DepVal.prim (JSVal.num 1), DepVal.prim (JSVal.num 9)]
      [DepVal.prim (JSVal.num 2), DepVal.prim (JSVal.num 9)]).1
    rfl (by decide) (by decide) (by decide),
   (c4_memoized_caching (List DepVal) (fun args => args) (fun args => args)
      [DepVal.prim (JSVal.num 1)] [DepVal.prim (JSVal.num 2)]).2
    (by decide) (by decide)⟩

/-- Claim C5 (amended): when the dependants are not all object-like, the
calls sharing the dependants' object prefix share one cache (a single
shared cache when the first dependant is primitive), guarded by a shallow
comparison of the whole dependants arrays — index 0 included: any
difference, at index 0 or later, clears the cache's entries before use and
re-invokes the selector; only fully identical dependants keep the cached
entries valid. -/
theorem c5_shared_cache_guard (R : Type) (f : List DepVal → R)
    (gd : List DepVal → List DepVal) (args1 args2 : List DepVal)
    (hprim : allObjects (gd args1) = false) :
    (gd args2 ≠ gd args1 → objPrefix (gd args2) = objPrefix (gd args1) →
      (secondCall f gd args1 args2).invoked = true ∧
        (secondCall f gd args1 args2).val = f args2) ∧
    (gd args2 = gd args1 → 0 < args1.length → args1.length = args2.length →
      args1.drop 1 = args2.drop 1 →
      (secondCall f gd args1 args2).invoked = false ∧
        (secondCall f gd args1 args2).val = f args1) := by
  constructor
  · intro hne hpath
    have h := secondCall_cleared f gd args1 args2 hprim hpath hne
    exact ⟨h.2, h.1⟩
  · intro hdeps hlen0 hlen htail
    have h := secondCall_hit f gd args1 args2 hdeps hlen0 hlen htail
    exact ⟨h.2, h.1⟩

/-- With the default dependants getter, dependants differing only at index 0
(the source argument) still clear the cache: the selector re-runs. -/
theorem c5_shared_cache_guard_witness :
    (secondCall (fun args => args) arrayOfDeps
      [DepVal.prim (JSVal.num 1)] [DepVal.prim (JSVal.num 3)]).invoked = true ∧
    (secondCall (fun args => args) arrayOfDeps
      [DepVal.prim (JSVal.num 1)] [DepVal.prim (JSVal.num 3)]).val
      = [DepVal.prim (JSVal.num 3)] :=
  (c5_shared_cache_guard (List DepVal) (fun args => args) arrayOfDeps
    [DepVal.prim (JSVal.num 1)] [DepVal.prim (JSVal.num 3)]
    (by decide)).1 (by decide) (by decide)

/-- The original phrasing fails on the code: the guard compares the whole
dependants arrays.  With the default (`arrayOf`) dependants, two calls whose
dependants agree at every index except 0 are treated as a mismatch — the
cache is cleared and the selector re-invoked, where a comparison ignoring
index 0 would have served the cached value. -/
theorem c5_guard_counterexample :
    (arrayOfDeps [DepVal.prim (JSVal.num 2)]).drop 1 =
      (arrayOfDeps [DepVal.prim (JSVal.num 1)]).drop 1 ∧
    (secondCall (fun args => args) arrayOfDeps
      [DepVal.prim (JSVal.num 1)] [DepVal.prim (JSVal.num 2)]).invoked = true ∧
    (secondCall (fun args => args) arrayOfDeps
      [DepVal.prim (JSVal.num 1)] [DepVal.prim (JSVal.num 2)]).val
      = [DepVal.prim (JSVal.num 2)] := by
  decide

/-! ## The registry (`registry.ts`)

`createRegistry(storeConfigs, parent)` keeps a plain `stores` record from
name to store instance, and an optional parent registry.  A store instance
is identified here by its selectors and actions objects (references). -/

/-- A registered store instance, by the references `select`/`dispatch`
return (`getSelectors()` / `getActions()`). -/
structure StoreInstance : Type where
  selectors : Nat
  actions : Nat
deriving DecidableEq, Repr

/-- A registry: its `stores` record, and `parent` — `null` (`root`) or
another registry (`child`); the two constructors stand for the two values
of the `parent` argument. -/
inductive Registry : Type where
  | root (stores : List (String × StoreInstance))
  | child (stores : List (String × StoreInstance)) (parent : Registry)
deriving DecidableEq

/-- The registry's `stores` record. -/
def Registry.stores : Registry → List (String × StoreInstance)
  | .root s => s
  | .child s _ => s

/-- Replace the registry's `stores` record in place. -/
def Registry.withStores : Registry → List (String × StoreInstance) → Registry
  | .root _, s => .root s
  | .child _ p, s => .child s p

/-- `registry.select(storeName)`: the local store's `getSelectors()` when
the name is registered locally, else `parent?.select(storeName)` —
`undefined` (`none`) at a parentless registry. -/
def Registry.select : Registry → String → Option Nat
  | .root stores, name =>
    match assocFind stores name with
    | some store => some store.selectors
    | none => none
  | .child stores p, name =>
    match assocFind stores name with
    | some store => some store.selectors
    | none => p.select name

/-- The outcome of `registerStoreInstance`: whether the duplicate-name
`console.error` path ran (no exception either way), the store instance the
call returned, and the registry afterwards. -/
structure RegisterResult : Type where
  errored : Bool
  returned : StoreInstance
  registry : Registry
deriving DecidableEq

/-- `registerStoreInstance(name, createStore)`: an already-registered name
logs `console.error` and returns the existing instance before anything else
runs; otherwise the created store is stored under the name.  (The
`getSelectors`/`getActions`/`subscribe` type checks cannot fail for the
well-formed instances modelled here.) -/
def registerStoreInstance (r : Registry) (name : String)
    (store : StoreInstance) : RegisterResult :=
  match assocFind r.stores name with
  | some existing => ⟨true, existing, r⟩
  | none => ⟨false, store, r.withStores (assocSet r.stores name store)⟩

theorem Registry.select_local (r : Registry) (name : String)
    (s : StoreInstance) (h : assocFind r.stores name = some s) :
    r.select name = some s.selectors := by
  cases r with
  | root stores =>
    simp only [Registry.stores] at h
    simp [Registry.select, h]
  | child stores p =>
    simp only [Registry.stores] at h
    simp [Registry.select, h]

/-- Claim C8: registering a store under an already-registered name reports
the error through the `console.error` path without throwing, returns the
previously registered instance, leaves the registry — its store record
included — unchanged, and a subsequent `select` of that name still answers
with the first store's selectors. -/
theorem c8_duplicate_registration (r : Registry) (name : String)
    (s1 s2 : StoreInstance) (hfound : assocFind r.stores name = some s1) :
    (registerStoreInstance r name s2).errored = true ∧
    (registerStoreInstance r name s2).returned = s1 ∧
    (registerStoreInstance r name s2).registry = r ∧
    (registerStoreInstance r name s2).registry.select name
      = some s1.selectors := by
  refine ⟨?_, ?_, ?_, ?_⟩ <;>
    simp [registerStoreInstance, hfound, Registry.select_local r name s1 hfound]

/-- Concrete duplicate registration: the second store for `"a"` is refused
and `select "a"` keeps answering for the first. -/
theorem c8_duplicate_registration_witness :
    (registerStoreInstance (Registry.root [("a", ⟨10, 20⟩)]) "a"
      ⟨30, 40⟩).errored = true ∧
    (registerStoreInstance (Registry.root [("a", ⟨10, 20⟩)]) "a"
      ⟨30, 40⟩).returned = ⟨10, 20⟩ ∧
    (registerStoreInstance (Registry.root [("a", ⟨10, 20⟩)]) "a"
      ⟨30, 40⟩).registry = Registry.root [("a", ⟨10, 20⟩)] ∧
    (registerStoreInstance (Registry.root [("a", ⟨10, 20⟩)]) "a"
      ⟨30, 40⟩).registry.select "a" = some 10 :=
  c8_duplicate_registration (Registry.root [("a", ⟨10, 20⟩)]) "a"
    ⟨10, 20⟩ ⟨30, 40⟩ (by decide)

/-- Claim C9: `select` for a name with no locally registered store delegates
to the parent registry's `select` when a parent exists, and evaluates to
`undefined` when there is none. -/
theorem c9_parent_delegation (stores : List (String × StoreInstance))
    (p : Registry) (name : String)
    (hmiss : assocFind stores name = none) :
    (Registry.child stores p).select name = p.select name ∧
    (Registry.root stores).select name = none := by
  constructor
  · simp [Registry.select, hmiss]
  · simp [Registry.select, hmiss]

/-- Concrete delegation: a child registry without `"a"` answers with its
parent's `"a"` selectors; a parentless one answers `undefined`. -/
theorem c9_parent_delegation_witness :
    (Registry.child [("b", ⟨50, 60⟩)]
        (Registry.root [("a", ⟨10, 20⟩)])).select "a" =
      (Registry.root [("a", ⟨10, 20⟩)]).select "a" ∧
    (Registry.root [("b", ⟨50, 60⟩)]).select "a" = none :=
  c9_parent_delegation [("b", ⟨50, 60⟩)] (Registry.root [("a", ⟨10, 20⟩)])
    "a" (by decide)

/-! ## combineReducers (`redux-store/combine-reducers.ts`)

The combined reducer builds `nextState` key by key and returns it only when
some sub-reducer changed its slice (`!==`); otherwise it returns the very
`state` object it was given.  Object identity is made explicit by an
allocation reference on the state object; slice values live in `Option V`
(`none` is `undefined`, for a key the state object does not have). -/

/-- A JavaScript object with identity: its allocation reference and its own
enumerable properties. -/
structure JSObj (V : Type) : Type where
  ref : Nat
  fields : List (String × V)
deriving DecidableEq

/-- One iteration of the `for (const key of keys)` loop: run the key's
reducer on `state[key]`, store the result in the accumulated `nextState`,
and fold `nextStateForKey !== prevStateForKey` into `hasChanged`. -/
def combineStep {V A : Type} [DecidableEq V] (state : JSObj (Option V))
    (action : A) (acc : List (String × Option V) × Bool)
    (kv : String × (Option V → A → Option V)) :
    List (String × Option V) × Bool :=
  let prev := (assocFind state.fields kv.1).getD none
  let next := kv.2 prev action
  (assocSet acc.1 kv.1 next, acc.2 || decide (¬ next = prev))

/-- `combineReducers(reducers)` applied to a state object and an action;
`fresh` is the reference of the `nextState` object the call allocates. -/
def combinedReducer {V A : Type} [DecidableEq V]
    (reducers : List (String × (Option V → A → Option V))) (fresh : Nat)
    (state : JSObj (Option V)) (action : A) : JSObj (Option V) :=
  let r := reducers.foldl (combineStep state action) ([], false)
  if r.2 then ⟨fresh, r.1⟩ else state

theorem combineStep_flag_mono {V A : Type} [DecidableEq V]
    (state : JSObj (Option V)) (action : A)
    (l : List (String × (Option V → A → Option V)))
    (acc : List (String × Option V) × Bool) (h : acc.2 = true) :
    (l.foldl (combineStep state action) acc).2 = true := by
  induction l generalizing acc with
  | nil => exact h
  | cons kv rest ih =>
    exact ih _ (by simp [combineStep, h])

theorem combineStep_flag_false {V A : Type} [DecidableEq V]
    (state : JSObj (Option V)) (action : A)
    (l : List (String × (Option V → A → Option V)))
    (acc : List (String × Option V) × Bool) (h : acc.2 = false)
    (hall : ∀ kv ∈ l, kv.2 ((assocFind state.fields kv.1).getD none) action
      = (assocFind state.fields kv.1).getD none) :
    (l.foldl (combineStep state action) acc).2 = false := by
  induction l generalizing acc with
  | nil => exact h
  | cons kv rest ih =>
    refine ih _ ?_ (fun kv' h' => hall kv' (List.mem_cons_of_mem kv h'))
    simp [combineStep, h, hall kv (List.mem_cons_self kv rest)]

theorem combineStep_flag_of_mem {V A : Type} [DecidableEq V]
    (state : JSObj (Option V)) (action : A)
    (l : List (String × (Option V → A → Option V)))
    (acc : List (String × Option V) × Bool)
    (kv : String × (Option V → A → Option V)) (hm : kv ∈ l)
    (hch : kv.2 ((assocFind state.fields kv.1).getD none) action
      ≠ (assocFind state.fields kv.1).getD none) :
    (l.foldl (combineStep state action) acc).2 = true := by
  induction l generalizing acc with
  | nil => cases hm
  | cons kv' rest ih =>
    rcases List.mem_cons.mp hm with h | h
    · subst h
      exact combineStep_flag_mono state action rest _ (by simp [combineStep, hch])
    · exact ih _ h

theorem combineStep_fields_preserve {V A : Type} [DecidableEq V]
    (state : JSObj (Option V)) (action : A)
    (l : List (String × (Option V → A → Option V)))
    (acc : List (String × Option V) × Bool) (k : String)
    (hk : k ∉ l.map Prod.fst) :
    assocFind (l.foldl (combineStep state action) acc).1 k =
      assocFind acc.1 k := by
  induction l generalizing acc with
  | nil => rfl
  | cons kv rest ih =>
    have hk1 : kv.1 ≠ k := by
      intro h
      exact hk (by simp [← h])
    have hk2 : k ∉ rest.map Prod.fst := fun h => hk (by simp [h])
    simp only [List.foldl_cons]
    rw [ih _ hk2]
    simp [combineStep, assocFind_assocSet_ne _ _ _ _ (Ne.symm hk1)]

theorem combineStep_fields_find {V A : Type} [DecidableEq V]
    (state : JSObj (Option V)) (action : A)
    (l : List (String × (Option V → A → Option V)))
    (acc : List (String × Option V) × Bool)
    (kv : String × (Option V → A → Option V))
    (hnd : (l.map Prod.fst).Nodup) (hm : kv ∈ l) :
    assocFind (l.foldl (combineStep state action) acc).1 kv.1 =
      some (kv.2 ((assocFind state.fields kv.1).getD none) action) := by
  induction l generalizing acc with
  | nil => cases hm
  | cons kv' rest ih =>
    rcases List.mem_cons.mp hm with h | h
    · subst h
      have hk : kv.1 ∉ rest.map Prod.fst := by
        simpa using (List.nodup_cons.mp hnd).1
      simp only [List.foldl_cons]
      rw [combineStep_fields_preserve state action rest _ kv.1 hk]
      simp [combineStep, assocFind_assocSet_self]
    · exact ih _ (List.nodup_cons.mp hnd).2 h

/-- Claim C10: the combined reducer preserves state identity — when every
sub-reducer returns its previous slice unchanged, the call returns the very
state object it was given; when some sub-reducer returns a different slice,
it returns the newly allocated object, which carries every sub-reducer's
result under that reducer's key. -/
theorem c10_combineReducers_identity {V A : Type} [DecidableEq V]
    (reducers : List (String × (Option V → A → Option V))) (fresh : Nat)
    (state : JSObj (Option V)) (action : A)
    (hfresh : fresh ≠ state.ref)
    (hnd : (reducers.map Prod.fst).Nodup) :
    ((∀ kv ∈ reducers,
        kv.2 ((assocFind state.fields kv.1).getD none) action
          = (assocFind state.fields kv.1).getD none) →
      combinedReducer reducers fresh state action = state) ∧
    ((∃ kv ∈ reducers,
        kv.2 ((assocFind state.fields kv.1).getD none) action
          ≠ (assocFind state.fields kv.1).getD none) →
      (combinedReducer reducers fresh state action).ref = fresh ∧
      (combinedReducer reducers fresh state action).ref ≠ state.ref ∧
      ∀ kv ∈ reducers,
        assocFind (combinedReducer reducers fresh state action).fields kv.1
          = some (kv.2 ((assocFind state.fields kv.1).getD none) action)) := by
  constructor
  · intro hall
    have hflag := combineStep_flag_false state action reducers ([], false) rfl hall
    simp [combinedReducer, hflag]
  · intro hch
    obtain ⟨kv, hm, hne⟩ := hch
    have hflag := combineStep_flag_of_mem state action reducers ([], false) kv hm hne
    refine ⟨?_, ?_, ?_⟩
    · simp [combinedReducer, hflag]
    · simp [combinedReducer, hflag]
      exact hfresh
    · intro kv' hm'
      have := combineStep_fields_find state action reducers ([], false) kv' hnd hm'
      simpa [combinedReducer, hflag] using this

/-- Concrete runs of both halves: an identity sub-reducer leaves the state
object itself; a slice-replacing sub-reducer yields the fresh object with
the new slice. -/
theorem c10_combineReducers_identity_witness :
    (combinedReducer [("a", fun prev (_ : Nat) => prev)] 5
        (⟨0, [("a", some 1)]⟩ : JSObj (Option Nat)) 0 =
      (⟨0, [("a", some 1)]⟩ : JSObj (Option Nat))) ∧
    ((combinedReducer [("a", fun _ (_ : Nat) => some 2)] 5
        (⟨0, [("a", some 1)]⟩ : JSObj (Option Nat)) 0).ref = 5 ∧
      assocFind (combinedReducer [("a", fun _ (_ : Nat) => some 2)] 5
        (⟨0, [("a", some 1)]⟩ : JSObj (Option Nat)) 0).fields "a"
        = some (some 2)) :=
  ⟨(c10_combineReducers_identity [("a", fun prev (_ : Nat) => prev)] 5
      ⟨0, [("a", some 1)]⟩ 0 (by decide) (by simp)).1
      (fun kv hm => by
        cases hm with
        | head => rfl
        | tail _ h => cases h),
   ⟨((c10_combineReducers_identity [("a", fun _ (_ : Nat) => some 2)] 5
      ⟨0, [("a", some 1)]⟩ 0 (by decide) (by simp)).2
      ⟨("a", fun _ (_ : Nat) => some 2), List.mem_cons_self _ _, by decide⟩).1,
    by
      have h := ((c10_combineReducers_identity
        [("a", fun _ (_ : Nat) => some 2)] 5
        ⟨0, [("a", some 1)]⟩ 0 (by decide) (by simp)).2
        ⟨("a", fun _ (_ : Nat) => some 2), List.mem_cons_self _ _, by decide⟩).2.2
      simpa using h ("a", fun _ (_ : Nat) => some 2) (List.mem_cons_self _ _)⟩⟩

end DataSpec
